import Mathlib

/-!
# smartjson: a shallow embedding of `src/smartjson.js`

A JavaScript string is modelled as a list of characters (`Str`).  The regular
expressions of the source are all deterministic (every quantifier ranges over
a character class disjoint from what follows it, or is lazy and followed by a
literal), so each one is embedded as a *matcher*: a function that, given the
text starting at a candidate position, says whether the expression matches
there and, if so, returns its payload (capture groups or matched text) and the
text after the match.  `String.prototype.replace` / `match` with the `g` flag
are the generic left-to-right, non-overlapping drivers `replaceAll` and
`matchAll`.

`JSON.parse` is the platform's parser; it is embedded as a recursive-descent
parser for the JSON grammar of ECMA-404 / ECMA-262 §25.5.1.
-/

namespace SmartJSON

/-- A JavaScript string. A code point outside the basic plane is one element
here where JavaScript has two code units; no pattern of the source tells the
two apart. -/
abbrev Str := List Char

/-! ## Character classes -/

/-- The class `\s` of a JavaScript regular expression, which is also the set of
characters removed by `String.prototype.trim` (WhiteSpace and LineTerminator). -/
def isSpace (c : Char) : Bool :=
  let n := c.toNat
  (9 ≤ n && n ≤ 13) || n == 32 || n == 160 || n == 0x1680 ||
  (0x2000 ≤ n && n ≤ 0x200A) || n == 0x2028 || n == 0x2029 || n == 0x202F ||
  n == 0x205F || n == 0x3000 || n == 0xFEFF

/-- The class `[A-Za-z0-9_]`. -/
def isWordCh (c : Char) : Bool :=
  let n := c.toNat
  (65 ≤ n && n ≤ 90) || (97 ≤ n && n ≤ 122) || (48 ≤ n && n ≤ 57) || n == 95

/-- The class `[{,]`. -/
def isOpener (c : Char) : Bool := c == '{' || c == ','

/-- The class `[}\]]`. -/
def isCloser (c : Char) : Bool := c == '}' || c == ']'

/-- A LineTerminator: the characters `.` does not match and before which `$`
matches under the `m` flag. -/
def isLineTerm (c : Char) : Bool :=
  let n := c.toNat
  n == 10 || n == 13 || n == 0x2028 || n == 0x2029

/-! ## Generic drivers for `replace` and `match` -/

/-- A matcher: applied to the text that starts at a candidate position, it
returns `none` when the expression does not match there, and otherwise a
payload together with the text that follows the match. -/
abbrev Matcher (α : Type) := Str → Option (α × Str)

/-- Worker of `replaceAll`; the first argument bounds the number of steps. -/
def replaceAllAux (m : Matcher Str) : Nat → Str → Str
  | 0, s => s
  | _ + 1, [] => []
  | n + 1, c :: r =>
    match m (c :: r) with
    | some (rep, rest) => rep ++ replaceAllAux m n rest
    | none => c :: replaceAllAux m n r

/-- The call `text.replace(/re/g, replacement)`: scan left to right; at the leftmost
position where the expression matches, emit the replacement and continue after
the match; elsewhere copy the character. The payload of the matcher is the
replacement text with its `$n` already substituted. -/
def replaceAll (m : Matcher Str) (s : Str) : Str := replaceAllAux m s.length s

/-- The call `text.replace(/re/, replacement)` without the `g` flag: only the leftmost
match is replaced. -/
def replaceFirst (m : Matcher Str) : Str → Str
  | [] => []
  | c :: r =>
    match m (c :: r) with
    | some (rep, rest) => rep ++ rest
    | none => c :: replaceFirst m r

/-- Worker of `matchAll`. -/
def matchAllAux (m : Matcher Str) : Nat → Str → List Str
  | 0, _ => []
  | _ + 1, [] => []
  | n + 1, c :: r =>
    match m (c :: r) with
    | some (hit, rest) => hit :: matchAllAux m n rest
    | none => matchAllAux m n r

/-- The matched substrings of `text.match(/re/g)`, in text order (JavaScript
returns `null` instead of an empty array). The payload of the matcher is the
matched text. -/
def matchAll (m : Matcher Str) (s : Str) : List Str := matchAllAux m s.length s

/-- Split at the first occurrence of `pat`: the text before it and the text
after it. This is what a lazy `[\s\S]*?` followed by the literal `pat` finds. -/
def splitAtFirst (pat : Str) : Str → Option (Str × Str)
  | [] => if pat = [] then some ([], []) else none
  | c :: r =>
    if pat.isPrefixOf (c :: r) then some ([], (c :: r).drop pat.length)
    else (splitAtFirst pat r).map (fun p => (c :: p.1, p.2))

/-- The method `String.prototype.trim`: leading and trailing whitespace is
removed. -/
def trim (s : Str) : Str :=
  ((s.dropWhile isSpace).reverse.dropWhile isSpace).reverse

/-! ## `fixJSON` -/

/-- The expression `/([{,]\s*)([A-Za-z0-9_]+)\s*:/` at a position: the captures
`$1`, `$2` and the text after the colon. Whitespace, word characters and the
colon are pairwise disjoint, so each greedy run is maximal. -/
def keyMatch (s : Str) : Option (Str × Str × Str) :=
  match s with
  | [] => none
  | c :: r =>
    if isOpener c then
      let ws1 := r.takeWhile isSpace
      let r1 := r.dropWhile isSpace
      let key := r1.takeWhile isWordCh
      let r2 := r1.dropWhile isWordCh
      if key.isEmpty then none
      else
        match r2.dropWhile isSpace with
        | ':' :: rest => some (c :: ws1, key, rest)
        | _ => none
    else none

/-- Step 1 of `fixJSON`: `/([{,]\s*)([A-Za-z0-9_]+)\s*:/g` with replacement
`'$1"$2":'`. -/
def keyRule : Matcher Str := fun s =>
  (keyMatch s).map (fun g => (g.1 ++ '"' :: g.2.1 ++ ['"', ':'], g.2.2))

/-- Step 2 of `fixJSON`: `/,(\s*[}\]])/g` with replacement `'$1'`. -/
def commaRule : Matcher Str := fun s =>
  match s with
  | ',' :: r =>
    match r.dropWhile isSpace with
    | c :: rest => if isCloser c then some (r.takeWhile isSpace ++ [c], rest) else none
    | [] => none
  | _ => none

/-- Step 3 of `fixJSON`: `/'/g` with replacement `'"'`. -/
def quoteRule : Matcher Str := fun s =>
  match s with
  | '\'' :: r => some (['"'], r)
  | _ => none

/-- The function `smartJSON.fixJSON`. -/
def fixJSON (text : Str) : Str :=
  let result := text
  let result := replaceAll keyRule result
  let result := replaceAll commaRule result
  let result := replaceAll quoteRule result
  let result := trim result
  result

/-! ## Documents and `JSON.parse` -/

/-- A parsed document (a JavaScript value built by `JSON.parse`). A string is
its sequence of UTF-16 code units; a number is the exact value of its literal
(the rounding to a double is not modelled); an object lists its properties in
property order. -/
inductive JVal where
  | null
  | bool (b : Bool)
  | num (q : Rat)
  | str (s : List Nat)
  | arr (items : List JVal)
  | obj (props : List (List Nat × JVal))

/-- The UTF-16 code units of one character. -/
def utf16Char (c : Char) : List Nat :=
  let n := c.toNat
  if n < 0x10000 then [n]
  else [0xD800 + (n - 0x10000) / 0x400, 0xDC00 + (n - 0x10000) % 0x400]

/-- The UTF-16 code units of a text. -/
def utf16 (s : Str) : List Nat := s.flatMap utf16Char

/-- JSON whitespace: tab, line feed, carriage return, space. -/
def isJsonWs (c : Char) : Bool :=
  c == '\t' || c == '\n' || c == '\r' || c == ' '

/-- Skip JSON whitespace. -/
def skipWs (s : Str) : Str := s.dropWhile isJsonWs

/-- The class `[0-9]`. -/
def isDigit (c : Char) : Bool := 48 ≤ c.toNat && c.toNat ≤ 57

/-- The value of a hexadecimal digit. -/
def hexVal (c : Char) : Option Nat :=
  let n := c.toNat
  if 48 ≤ n && n ≤ 57 then some (n - 48)
  else if 65 ≤ n && n ≤ 70 then some (n - 55)
  else if 97 ≤ n && n ≤ 102 then some (n - 87)
  else none

/-- The code unit denoted by the single-character escape `\c`. -/
def escapeUnit (c : Char) : Option Nat :=
  if c == '"' then some 0x22
  else if c == '\\' then some 0x5C
  else if c == '/' then some 0x2F
  else if c == 'b' then some 8
  else if c == 'f' then some 12
  else if c == 'n' then some 10
  else if c == 'r' then some 13
  else if c == 't' then some 9
  else none

/-- The characters of a JSON string after its opening quote, up to and
including the closing quote: the code units of the string and the text after
it. Control characters below U+0020 are not allowed unescaped; an escape is
`\uXXXX` or one of the single-character escapes. -/
def parseStringBody : Str → Option (List Nat × Str)
  | [] => none
  | c :: r =>
    if c == '"' then some ([], r)
    else if c == '\\' then
      match r with
      | [] => none
      | e :: r1 =>
        if e == 'u' then
          match r1 with
          | x :: y :: z :: w :: r2 =>
            match hexVal x, hexVal y, hexVal z, hexVal w, parseStringBody r2 with
            | some a, some b, some c, some d, some (us, rest) =>
              some ((a * 4096 + b * 256 + c * 16 + d) :: us, rest)
            | _, _, _, _, _ => none
          | _ => none
        else
          match escapeUnit e, parseStringBody r1 with
          | some u, some (us, rest) => some (u :: us, rest)
          | _, _ => none
    else if c.toNat < 0x20 then none
    else
      match parseStringBody r with
      | some (us, rest) => some (utf16Char c ++ us, rest)
      | none => none

/-- The number denoted by a run of decimal digits. -/
def digitsVal (ds : Str) : Nat := ds.foldl (fun acc c => acc * 10 + (c.toNat - 48)) 0

/-- The value `m * 10 ^ e` as a rational. -/
def scale10 (m : Nat) (e : Int) : Rat :=
  match e with
  | Int.ofNat k => ((m * 10 ^ k : Nat) : Rat)
  | Int.negSucc k => mkRat (Int.ofNat m) (10 ^ (k + 1))

/-- The optional fraction of a JSON number: its digits and the text after. -/
def parseFrac (s : Str) : Option (Str × Str) :=
  match s with
  | [] => some ([], [])
  | c :: r =>
    if c == '.' then
      if (r.takeWhile isDigit).isEmpty then none
      else some (r.takeWhile isDigit, r.dropWhile isDigit)
    else some ([], c :: r)

/-- The digits of an exponent, after its sign: the value of the exponent and
the text after. -/
def parseExpDigits (neg : Bool) (s : Str) : Option (Int × Str) :=
  if (s.takeWhile isDigit).isEmpty then none
  else
    some (if neg then - Int.ofNat (digitsVal (s.takeWhile isDigit))
          else Int.ofNat (digitsVal (s.takeWhile isDigit)),
      s.dropWhile isDigit)

/-- The optional exponent of a JSON number: its value and the text after. -/
def parseExp (s : Str) : Option (Int × Str) :=
  match s with
  | [] => some (0, [])
  | c :: r =>
    if c == 'e' || c == 'E' then
      match r with
      | [] => none
      | d :: t =>
        if d == '-' then parseExpDigits true t
        else if d == '+' then parseExpDigits false t
        else parseExpDigits false (d :: t)
    else some (0, c :: r)

/-- A JSON number without its sign: `(0 | [1-9][0-9]*) (. [0-9]+)? ([eE] [+-]? [0-9]+)?`. -/
def parseUnsigned (s : Str) : Option (Rat × Str) :=
  match s with
  | [] => none
  | d :: t =>
    if !isDigit d then none
    else
      match parseFrac (if d == '0' then t else t.dropWhile isDigit) with
      | none => none
      | some (fracs, s3) =>
        match parseExp s3 with
        | none => none
        | some (e, s4) =>
          some (scale10 (digitsVal ((if d == '0' then [d] else d :: t.takeWhile isDigit) ++ fracs))
                  (e - Int.ofNat fracs.length), s4)

/-- A JSON number: an optional `-` and an unsigned number. -/
def parseNumber (s : Str) : Option (Rat × Str) :=
  match s with
  | [] => none
  | c :: t =>
    if c == '-' then
      match parseUnsigned t with
      | some (q, r) => some (-q, r)
      | none => none
    else parseUnsigned (c :: t)

/-- The array index denoted by a property key, if it is one (a canonical
numeric string below `2^32 - 1`). -/
def arrayIndex (k : List Nat) : Option Nat :=
  match k with
  | [] => none
  | d :: t =>
    if (d :: t).all (fun u => 48 ≤ u && u ≤ 57) && (d != 48 || t.isEmpty) then
      let v := (d :: t).foldl (fun acc u => acc * 10 + (u - 48)) 0
      if v ≤ 4294967294 then some v else none
    else none

/-- Insert a new array-index key `i` in ascending position among the index
keys, which come before all other keys. -/
def insertIndexProp (i : Nat) (k : List Nat) (v : JVal) :
    List (List Nat × JVal) → List (List Nat × JVal)
  | [] => [(k, v)]
  | p :: ps =>
    match arrayIndex p.1 with
    | some j => if j < i then p :: insertIndexProp i k v ps else (k, v) :: p :: ps
    | none => (k, v) :: p :: ps

/-- Define property `k` with value `v` on an object under construction: an
existing key keeps its place and takes the new value; a new key goes to the
end, or among the array-index keys when it is one. -/
def setProp (o : List (List Nat × JVal)) (k : List Nat) (v : JVal) : List (List Nat × JVal) :=
  if o.any (fun p => p.1 == k) then o.map (fun p => if p.1 == k then (k, v) else p)
  else
    match arrayIndex k with
    | some i => insertIndexProp i k v o
    | none => o ++ [(k, v)]

/-- The text after the literal `lit`, when the text starts with it. -/
def stripLit (lit s : Str) : Option Str :=
  if lit.isPrefixOf s then some (s.drop lit.length) else none

mutual
/-- A JSON value, after optional whitespace; the first argument bounds the
recursion. -/
def parseValue : Nat → Str → Option (JVal × Str)
  | 0, _ => none
  | n + 1, s =>
    match skipWs s with
    | [] => none
    | c :: r =>
      if c == '{' then
        match skipWs r with
        | '}' :: r1 => some (JVal.obj [], r1)
        | _ => parseMembers n r []
      else if c == '[' then
        match skipWs r with
        | ']' :: r1 => some (JVal.arr [], r1)
        | _ => parseElements n r []
      else if c == '"' then
        match parseStringBody r with
        | some (us, r1) => some (JVal.str us, r1)
        | none => none
      else
        match stripLit ['n', 'u', 'l', 'l'] (c :: r) with
        | some r1 => some (JVal.null, r1)
        | none =>
          match stripLit ['t', 'r', 'u', 'e'] (c :: r) with
          | some r1 => some (JVal.bool true, r1)
          | none =>
            match stripLit ['f', 'a', 'l', 's', 'e'] (c :: r) with
            | some r1 => some (JVal.bool false, r1)
            | none =>
              match parseNumber (c :: r) with
              | some (q, r1) => some (JVal.num q, r1)
              | none => none
/-- The elements of a non-empty array after `[`, up to and including `]`. -/
def parseElements : Nat → Str → List JVal → Option (JVal × Str)
  | 0, _, _ => none
  | n + 1, s, acc =>
    match parseValue n s with
    | none => none
    | some (v, r) =>
      match skipWs r with
      | ',' :: r1 => parseElements n r1 (acc ++ [v])
      | ']' :: r1 => some (JVal.arr (acc ++ [v]), r1)
      | _ => none
/-- The members of a non-empty object after `{`, up to and including `}`. -/
def parseMembers : Nat → Str → List (List Nat × JVal) → Option (JVal × Str)
  | 0, _, _ => none
  | n + 1, s, acc =>
    match skipWs s with
    | '"' :: r =>
      match parseStringBody r with
      | none => none
      | some (k, r1) =>
        match skipWs r1 with
        | ':' :: r2 =>
          match parseValue n r2 with
          | none => none
          | some (v, r3) =>
            match skipWs r3 with
            | ',' :: r4 => parseMembers n r4 (setProp acc k v)
            | '}' :: r4 => some (JVal.obj (setProp acc k v), r4)
            | _ => none
        | _ => none
    | _ => none
end

/-- The call `JSON.parse(text)`: `none` stands for the `SyntaxError` it throws.
The bound passed to `parseValue` is large enough for every text: any larger
bound gives the same result (`parseValue_fuel`). -/
def parse (text : Str) : Option JVal :=
  match parseValue (2 * text.length + 2) text with
  | some (v, r) => if (skipWs r).isEmpty then some v else none
  | none => none

/-- The conversion `Boolean(v)`. -/
def truthy : JVal → Bool
  | JVal.null => false
  | JVal.bool b => b
  | JVal.num q => decide (q ≠ 0)
  | JVal.str s => !s.isEmpty
  | JVal.arr _ => true
  | JVal.obj _ => true

/-! ## `isValid` and `parseSafe` -/

/-- The function `smartJSON.isValid`. -/
def isValid (text : Str) : Bool :=
  match parse text with
  | some _ => true
  | none => false

/-- A call made by `parseSafe` to one of its two collaborators. -/
inductive Call where
  | jsonParse (arg : Str)
  | fixJSON (arg : Str)
  deriving DecidableEq

/-- The function `smartJSON.parseSafe`, together with the calls it makes to
`JSON.parse` and `fixJSON`, in order. -/
def parseSafeRun (text : Str) : JVal × List Call :=
  match parse text with
  | some v => (v, [Call.jsonParse text])
  | none =>
    let fixed := fixJSON text
    match parse fixed with
    | some v => (v, [Call.jsonParse text, Call.fixJSON text, Call.jsonParse fixed])
    | none => (JVal.null, [Call.jsonParse text, Call.fixJSON text, Call.jsonParse fixed])

/-- The value returned by `smartJSON.parseSafe`. -/
def parseSafe (text : Str) : JVal := (parseSafeRun text).1

/-! ## The candidate-span searches and `autoExtract` -/

/-- The options of `autoExtract`, with their defaults. -/
structure Options where
  tryFix : Bool := true
  multi : Bool := false
  returnString : Bool := false

/-- The text of a code-fence delimiter. -/
def fence : Str := ['`', '`', '`']

/-- Whether `c` is the letter `l` in either case (the `i` flag; `l` is a
lower-case ASCII letter, and no character outside ASCII is canonicalised to an
ASCII letter). -/
def eqIgnoreCase (l c : Char) : Bool := c == l || c.toNat + 32 == l.toNat

/-- The expression of `/```json([\s\S]*?)```/gi` with replacement `'$1'`. -/
def fenceJsonRule : Matcher Str := fun s =>
  match s with
  | '`' :: '`' :: '`' :: j :: s1 :: o :: n :: r =>
    if eqIgnoreCase 'j' j && eqIgnoreCase 's' s1 && eqIgnoreCase 'o' o && eqIgnoreCase 'n' n then
      splitAtFirst fence r
    else none
  | _ => none

/-- The expression of `/```([\s\S]*?)```/gi` with replacement `'$1'`. -/
def fenceRule : Matcher Str := fun s =>
  match s with
  | '`' :: '`' :: '`' :: r => splitAtFirst fence r
  | _ => none

/-- The expression `/\\n/g` (a backslash followed by `n`) with a line feed as
replacement. -/
def newlineRule : Matcher Str := fun s =>
  match s with
  | '\\' :: 'n' :: r => some (['\n'], r)
  | _ => none

/-- The expression `/\{[\s\S]*?\}/g` of `autoExtract`: from an opening brace to
the first closing brace after it. The payload is the matched text. -/
def braceRule : Matcher Str := fun s =>
  match s with
  | '{' :: r =>
    match splitAtFirst ['}'] r with
    | some (body, rest) => some ('{' :: body ++ ['}'], rest)
    | none => none
  | _ => none

/-- The class `[^{}]`. -/
def notBrace (c : Char) : Bool := c != '{' && c != '}'

/-- The expression `/{[^{}]+}/g` of `streamParse`: an opening brace, one or
more characters that are not braces, a closing brace. The payload is the
matched text. -/
def streamRule : Matcher Str := fun s =>
  match s with
  | '{' :: r =>
    let body := r.takeWhile notBrace
    if body.isEmpty then none
    else
      match r.dropWhile notBrace with
      | '}' :: rest => some ('{' :: body ++ ['}'], rest)
      | _ => none
  | _ => none

/-- The candidate spans of `autoExtract`: `content.match(/\{[\s\S]*?\}/g)`. -/
def scanSpans (content : Str) : List Str := matchAll braceRule content

/-- The candidate spans of `streamParse`: `buffer.match(/{[^{}]+}/g)`. -/
def streamSpans (buffer : Str) : List Str := matchAll streamRule buffer

/-- The call `.replace(/^[^{]+/, "")`: a non-empty run of characters other than
`{` at the very start is removed. -/
def stripHead (s : Str) : Str :=
  if (s.takeWhile (fun c => c != '{')).isEmpty then s else s.dropWhile (fun c => c != '{')

/-- The expression `/[^}]+$/` with replacement `""`: it matches at a position
exactly when the text from there to the end is non-empty and has no `}`. -/
def tailRule : Matcher Str := fun s =>
  if !s.isEmpty && s.all (fun c => c != '}') then some ([], []) else none

/-- The expression `/\/\/.*$/gm` with replacement `""`: from `//` to the end of
the line. -/
def lineCommentRule : Matcher Str := fun s =>
  match s with
  | '/' :: '/' :: r => some ([], r.dropWhile (fun c => !isLineTerm c))
  | _ => none

/-- The expression `/\/\*[\s\S]*?\*\//g` with replacement `""`. -/
def blockCommentRule : Matcher Str := fun s =>
  match s with
  | '/' :: '*' :: r =>
    match splitAtFirst ['*', '/'] r with
    | some (_, rest) => some ([], rest)
    | none => none
  | _ => none

/-- Step 1 of `autoExtract`: code fences removed, escaped newlines turned into
line feeds, the whole trimmed. -/
def cleanContent (rawText : Str) : Str :=
  trim (replaceAll newlineRule (replaceAll fenceRule (replaceAll fenceJsonRule rawText)))

/-- The four `replace` calls `autoExtract` applies to a candidate before the
repair: leading and trailing excess, line comments, block comments. -/
def stripComments (m : Str) : Str :=
  replaceAll blockCommentRule (replaceAll lineCommentRule (replaceFirst tailRule (stripHead m)))

/-- The callback `autoExtract` maps over the candidates: the parsed document,
or `null` when the candidate does not parse. -/
def extractOne (stringify2 : JVal → List Nat) (options : Options) (m : Str) : JVal :=
  let jsonText := stripComments m
  let jsonText := if options.tryFix then fixJSON jsonText else jsonText
  match parse jsonText with
  | some obj => if options.returnString then JVal.str (stringify2 obj) else obj
  | none => JVal.null

/-- The function `smartJSON.autoExtract` on a string. `stringify2` stands for
`JSON.stringify(·, null, 2)`, used only under `returnString`. A result list is
returned as a JavaScript array. -/
def autoExtract (stringify2 : JVal → List Nat) (rawText : Str) (options : Options) : JVal :=
  let content := cleanContent rawText
  let ms := scanSpans content
  if ms.isEmpty then JVal.null
  else
    let parsed := (ms.map (extractOne stringify2 options)).filter truthy
    if !options.multi then
      match parsed with
      | v :: _ => if truthy v then v else JVal.null
      | [] => JVal.null
    else if parsed.length != 0 then JVal.arr parsed else JVal.null

/-! ## `detectBroken` -/

/-- The call `text.includes(flag)`: `flag` occurs somewhere in `text`. -/
def includes (flag : Str) : Str → Bool
  | [] => flag.isEmpty
  | c :: r => flag.isPrefixOf (c :: r) || includes flag r

/-- The list `redFlags` of `detectBroken`. -/
def redFlags : List Str :=
  ["```".toList, "json".toList, "undefined".toList, "None".toList, "NaN".toList]

/-- The function `smartJSON.detectBroken`. -/
def detectBroken (text : Str) : Bool :=
  redFlags.any (fun flag => includes flag text)

/-! ## `autofix` -/

/-- The call `.replace(/^[^\{]*\{/s, '{')`: when the text has a `{`, everything
before the first one is removed. -/
def headProse (text : Str) : Str :=
  if (text.dropWhile (fun c => c != '{')).isEmpty then text
  else text.dropWhile (fun c => c != '{')

/-- The expression `/\}[^}]*$/s` with replacement `'}'`: it matches at a `}`
after which the text has no further `}`. -/
def tailProseRule : Matcher Str := fun s =>
  match s with
  | [] => none
  | c :: r => if c == '}' && r.all (fun d => d != '}') then some (['}'], []) else none

/-- Step 2 of `autofix`: the text before the first `{` and after the last `}`
is removed. -/
def stripProse (text : Str) : Str := replaceFirst tailProseRule (headProse text)

/-- The assertion `\b` before a word character: the previous character, if
any, is no word character. -/
def boundaryBefore (prev : Option Char) : Bool :=
  match prev with
  | none => true
  | some p => !isWordCh p

/-- The assertion `\b` after a word character: the next character, if any, is
no word character. -/
def boundaryAfter (rest : Str) : Bool :=
  match rest with
  | [] => true
  | d :: _ => !isWordCh d

/-- Worker of `replaceWord`: the first argument bounds the number of steps, the
second is the character before the current position. -/
def replaceWordAux (word repl : Str) : Nat → Option Char → Str → Str
  | 0, _, s => s
  | _ + 1, _, [] => []
  | n + 1, prev, c :: r =>
    if boundaryBefore prev && word.isPrefixOf (c :: r) &&
        boundaryAfter ((c :: r).drop word.length) then
      repl ++ replaceWordAux word repl n word.getLast? ((c :: r).drop word.length)
    else c :: replaceWordAux word repl n (some c) r

/-- The call `text.replace(/\bword\b/g, repl)` for a non-empty `word` made of
word characters. -/
def replaceWord (word repl : Str) (s : Str) : Str :=
  replaceWordAux word repl s.length none s

/-- Step 3 of `autofix`: `None`, `True`, `False` as whole words become `null`,
`true`, `false`. -/
def translateLiterals (text : Str) : Str :=
  replaceWord "False".toList "false".toList
    (replaceWord "True".toList "true".toList
      (replaceWord "None".toList "null".toList text))

/-- The function `smartJSON.autofix`. -/
def autofix (rawText : Str) : JVal :=
  let text := rawText
  let text := replaceAll fenceJsonRule text
  let text := replaceAll fenceRule text
  let text := stripProse text
  let text := translateLiterals text
  let fixed := fixJSON text
  match parse fixed with
  | some v => v
  | none => JVal.null

/-! ## `streamParse` -/

/-- The state of one call of `streamParse`: the buffer, and the documents passed
to `onChunk` so far, in order. Lengths and positions (`buffer.length`, `slice`,
the loop index) count the elements of `Str`, which for text of the basic plane
are the code units that JavaScript counts. -/
structure StreamState where
  buffer : Str
  delivered : List JVal

/-- The call `buffer.slice(-n)` for a natural number `n`: the last `n`
characters (`-0` is `0`, so `n = 0` gives the whole text). -/
def sliceLast (n : Nat) (s : Str) : Str :=
  if n = 0 then s else s.drop (s.length - n)

/-- The body of both loops of `streamParse`: the chunk is appended to the
buffer, every span of the buffer that parses is passed to `onChunk` (a span
that does not parse is skipped), and a buffer longer than `chunkSize * 5` is
cut to its last `chunkSize` characters. One element of the buffer stands for one
UTF-16 code unit: the step is that of the source on text of the basic plane. -/
def streamStep (chunkSize : Nat) (st : StreamState) (chunk : Str) : StreamState :=
  let buffer := st.buffer ++ chunk
  let spans := streamSpans buffer
  let delivered := st.delivered ++ spans.filterMap parse
  let buffer := if buffer.length > chunkSize * 5 then sliceLast chunkSize buffer else buffer
  ⟨buffer, delivered⟩

/-- The default of the option `chunkSize`. -/
def defaultChunkSize : Nat := 1024 * 10

/-- The stream path of `streamParse`: the chunks of the stream are processed in
order; the call returns `true`. -/
def streamParseStream (chunks : List Str) (chunkSize : Nat) : Bool × StreamState :=
  (true, chunks.foldl (streamStep chunkSize) ⟨[], []⟩)

/-- The loop `for (let i = 0; i < input.length; i += chunkSize)` of the string
path, from index `i` on; the first argument bounds the number of iterations.
The index, `input.length` and `input.slice(i, i + chunkSize)` count elements of
the text, which are the code units of the source on text of the basic plane. -/
def stringLoop (chunkSize : Nat) (input : Str) : Nat → Nat → StreamState → Option StreamState
  | 0, _, _ => none
  | fuel + 1, i, st =>
    if i < input.length then
      let piece := (input.drop i).take chunkSize
      stringLoop chunkSize input fuel (i + chunkSize) (streamStep chunkSize st piece)
    else some st

/-- The string path of `streamParse`: `none` when the loop does not end (a
`chunkSize` of 0 on a non-empty input), otherwise the returned `true` and the
final state. -/
def streamParseString (input : Str) (chunkSize : Nat) : Option (Bool × StreamState) :=
  (stringLoop chunkSize input (input.length + 1) 0 ⟨[], []⟩).map (fun st => (true, st))

/-! ## Plain objects and their properties -/

/-- A property key: the UTF-16 code units of a string. -/
abbrev Key := List Nat

/-- A plain object (one built by `JSON.parse` or an object literal): its own
properties in property order, keys distinct. Its prototype is
`Object.prototype`. -/
abbrev Obj := List (Key × JVal)

/-- The names of the properties of `Object.prototype`, which a plain object
inherits. -/
def objectPrototypeKeys : List Key :=
  [utf16 "constructor".toList, utf16 "__defineGetter__".toList,
   utf16 "__defineSetter__".toList, utf16 "hasOwnProperty".toList,
   utf16 "__lookupGetter__".toList, utf16 "__lookupSetter__".toList,
   utf16 "isPrototypeOf".toList, utf16 "propertyIsEnumerable".toList,
   utf16 "toString".toList, utf16 "valueOf".toList, utf16 "__proto__".toList,
   utf16 "toLocaleString".toList]

/-- A value as the functions on objects can meet one: `undefined`, a document,
a function inherited from `Object.prototype`, or `Object.prototype` itself
(the inherited value of `__proto__`). -/
inductive JsVal where
  | undefined
  | doc (v : JVal)
  | function
  | objectPrototype

/-- The call `Object.keys(o)`. -/
def objectKeys {β : Type} (o : List (Key × β)) : List Key := o.map (fun p => p.1)

/-- The expression `key in o` for a plain object: an own property, or one
inherited from `Object.prototype`. -/
def hasProperty {β : Type} (o : List (Key × β)) (key : Key) : Bool :=
  (objectKeys o).contains key || objectPrototypeKeys.contains key

/-- The expression `o[key]` for a plain object. -/
def getProp (o : Obj) (key : Key) : JsVal :=
  match o.lookup key with
  | some v => JsVal.doc v
  | none =>
    if key == utf16 "__proto__".toList then JsVal.objectPrototype
    else if objectPrototypeKeys.contains key then JsVal.function
    else JsVal.undefined

/-- The operator `typeof`, as the code units of its result. -/
def typeofJs : JsVal → List Nat
  | JsVal.undefined => utf16 "undefined".toList
  | JsVal.function => utf16 "function".toList
  | JsVal.objectPrototype => utf16 "object".toList
  | JsVal.doc JVal.null => utf16 "object".toList
  | JsVal.doc (JVal.bool _) => utf16 "boolean".toList
  | JsVal.doc (JVal.num _) => utf16 "number".toList
  | JsVal.doc (JVal.str _) => utf16 "string".toList
  | JsVal.doc (JVal.arr _) => utf16 "object".toList
  | JsVal.doc (JVal.obj _) => utf16 "object".toList

/-- The call `Array.isArray(x)`. -/
def isArrayJs : JsVal → Bool
  | JsVal.doc (JVal.arr _) => true
  | _ => false

/-- The conversion `Boolean(x)`. -/
def truthyJs : JsVal → Bool
  | JsVal.undefined => false
  | JsVal.doc v => truthy v
  | JsVal.function => true
  | JsVal.objectPrototype => true

/-! ## `JSON.stringify` -/

/-- A lower-case hexadecimal digit. -/
def hexDigit (n : Nat) : Nat := if n < 10 then 48 + n else 87 + n

/-- The escape `\uXXXX` of a code unit. -/
def unicodeEscape (u : Nat) : List Nat :=
  [92, 117, hexDigit (u / 4096 % 16), hexDigit (u / 256 % 16), hexDigit (u / 16 % 16),
    hexDigit (u % 16)]

/-- The characters of a string between the quotes of `QuoteJSONString`: the
quote, the backslash and the control characters are escaped, a surrogate that
is not part of a pair is written as `\uXXXX`. -/
def quoteUnits : List Nat → List Nat
  | [] => []
  | u :: r =>
    if u == 8 then 92 :: 98 :: quoteUnits r
    else if u == 9 then 92 :: 116 :: quoteUnits r
    else if u == 10 then 92 :: 110 :: quoteUnits r
    else if u == 12 then 92 :: 102 :: quoteUnits r
    else if u == 13 then 92 :: 114 :: quoteUnits r
    else if u == 34 then 92 :: 34 :: quoteUnits r
    else if u == 92 then 92 :: 92 :: quoteUnits r
    else if u < 32 then unicodeEscape u ++ quoteUnits r
    else if 0xD800 ≤ u && u ≤ 0xDBFF then
      match r with
      | v :: r1 =>
        if 0xDC00 ≤ v && v ≤ 0xDFFF then u :: v :: quoteUnits r1
        else unicodeEscape u ++ quoteUnits (v :: r1)
      | [] => unicodeEscape u
    else if 0xDC00 ≤ u && u ≤ 0xDFFF then unicodeEscape u ++ quoteUnits r
    else u :: quoteUnits r

/-- The operation `QuoteJSONString`. -/
def quoteJSON (s : List Nat) : List Nat := 34 :: quoteUnits s ++ [34]

/-- The digits of the fraction `r / d` (with `r < d`), until the remainder is
zero; the first argument bounds their number. -/
def fracDigits : Nat → Nat → Nat → List Nat
  | 0, _, _ => []
  | f + 1, r, d => if r == 0 then [] else (48 + r * 10 / d) :: fracDigits f (r * 10 % d) d

/-- The decimal text of a number: an optional `-`, the integer part and, when
the number is no integer, a point and the fraction. For the magnitudes that
JavaScript writes without an exponent this is the text `Number::toString`
gives; like it, it gives two numbers the same text only when they are equal. -/
def numberToString (q : Rat) : List Nat :=
  (if q.num < 0 then [45] else []) ++
    (Nat.toDigits 10 (q.num.natAbs / q.den)).map Char.toNat ++
    (if q.num.natAbs % q.den == 0 then []
     else 46 :: fracDigits q.den (q.num.natAbs % q.den) q.den)

mutual
/-- The call `JSON.stringify(v)` on a document, as code units. -/
def stringify : JVal → List Nat
  | JVal.null => utf16 "null".toList
  | JVal.bool b => if b then utf16 "true".toList else utf16 "false".toList
  | JVal.num q => numberToString q
  | JVal.str s => quoteJSON s
  | JVal.arr items => 91 :: stringifyItems items ++ [93]
  | JVal.obj props => 123 :: stringifyProps props ++ [125]
/-- The elements of an array, separated by commas. -/
def stringifyItems : List JVal → List Nat
  | [] => []
  | [v] => stringify v
  | v :: w :: rest => stringify v ++ 44 :: stringifyItems (w :: rest)
/-- The members of an object, `"key":value` separated by commas. -/
def stringifyProps : List (List Nat × JVal) → List Nat
  | [] => []
  | [p] => quoteJSON p.1 ++ 58 :: stringify p.2
  | p :: q :: rest => quoteJSON p.1 ++ 58 :: stringify p.2 ++ 44 :: stringifyProps (q :: rest)
end

/-- The call `JSON.stringify(x)`: `none` stands for the result `undefined`
(for `undefined` and for a function); `Object.prototype` has no enumerable
property and gives `{}`. -/
def stringifyJs : JsVal → Option (List Nat)
  | JsVal.undefined => none
  | JsVal.function => none
  | JsVal.objectPrototype => some [123, 125]
  | JsVal.doc v => some (stringify v)

/-! ## `compare` -/

/-- The result of `compare`. -/
structure Diff where
  added : List Key
  removed : List Key
  changed : List Key
  unchanged : List Key

/-- Adding a key to a `Set`: a key already present keeps its place. -/
def setAdd (ks : List Key) (key : Key) : List Key :=
  if ks.contains key then ks else ks ++ [key]

/-- The set `allKeys` of `compare`, in insertion order. -/
def allKeys (obj1 obj2 : Obj) : List Key :=
  (objectKeys obj1 ++ objectKeys obj2).foldl setAdd []

/-- The body of the loop of `compare` for one key. -/
def compareStep (obj1 obj2 : Obj) (d : Diff) (key : Key) : Diff :=
  let val1 := getProp obj1 key
  let val2 := getProp obj2 key
  if !hasProperty obj1 key then { d with added := d.added ++ [key] }
  else if !hasProperty obj2 key then { d with removed := d.removed ++ [key] }
  else if stringifyJs val1 != stringifyJs val2 then { d with changed := d.changed ++ [key] }
  else { d with unchanged := d.unchanged ++ [key] }

/-- The function `smartJSON.compare` on two plain objects. -/
def compare (obj1 obj2 : Obj) : Diff :=
  (allKeys obj1 obj2).foldl (compareStep obj1 obj2) ⟨[], [], [], []⟩

/-! ## `patch` -/

/-- An exception thrown by the code. -/
inductive JsError where
  | typeError
  deriving DecidableEq

/-- The call `smartJSON.deepClone(x)`. The source assigns no property
`deepClone` to `smartJSON`, so the callee is `undefined` and the call throws a
`TypeError`. -/
def deepClone (_ : JsVal) : Except JsError JsVal := Except.error JsError.typeError

/-- The function `smartJSON.patch`. The two loops and the `return` that follow
`const result = smartJSON.deepClone(obj1)` are the parameter `loops`, a function
of `obj1`, `obj2` and `result`. -/
def patch (loops : JsVal → JsVal → JsVal → Except JsError JsVal) (obj1 obj2 : JsVal) :
    Except JsError JsVal :=
  if !truthyJs obj1 || typeofJs obj1 != utf16 "object".toList then deepClone obj2
  else if !truthyJs obj2 || typeofJs obj2 != utf16 "object".toList then pure obj1
  else
    match deepClone obj1 with
    | Except.error e => Except.error e
    | Except.ok result => loops obj1 obj2 result

/-! ## `validateSchema` -/

/-- The result of `validateSchema`. -/
structure SchemaResult where
  valid : Bool
  errors : List (List Nat)

/-- The type tag `Array.isArray(x) ? "array" : typeof x`. -/
def actualTypeOf (x : JsVal) : List Nat :=
  if isArrayJs x then utf16 "array".toList else typeofJs x

/-- The message for a key of the schema that is not in the data. -/
def missingMessage (key : Key) : List Nat :=
  utf16 "'".toList ++ key ++ utf16 "' is missing".toList

/-- The message for a value whose type tag is not the expected one. -/
def typeMessage (key expectedType actualType : List Nat) : List Nat :=
  utf16 "'".toList ++ key ++ utf16 "' should be ".toList ++ expectedType ++
    utf16 ", got ".toList ++ actualType

/-- The message for a key of the data that is not in the schema. -/
def extraMessage (key : Key) : List Nat :=
  utf16 "'".toList ++ key ++ utf16 "' is not defined in schema".toList

/-- The body of the first loop of `validateSchema` for one property of the
schema (its key and the type name it expects). -/
def schemaStep (data : Obj) (errors : List (List Nat)) (p : Key × List Nat) : List (List Nat) :=
  if !hasProperty data p.1 then errors ++ [missingMessage p.1]
  else
    let expectedType := p.2
    let actualType := actualTypeOf (getProp data p.1)
    if expectedType != actualType then errors ++ [typeMessage p.1 expectedType actualType]
    else errors

/-- The body of the second loop of `validateSchema` for one key of the data. -/
def extraStep (schema : List (Key × List Nat)) (errors : List (List Nat)) (key : Key) :
    List (List Nat) :=
  if !hasProperty schema key then errors ++ [extraMessage key] else errors

/-- The function `smartJSON.validateSchema` on a schema (a plain object whose
values are type names) and a plain object `data`. -/
def validateSchema (schema : List (Key × List Nat)) (data : Obj) : SchemaResult :=
  let errors := schema.foldl (schemaStep data) []
  let errors := (objectKeys data).foldl (extraStep schema) errors
  ⟨errors.length == 0, errors⟩

/-! ## Auxiliary predicates on texts -/

/-- A matcher consumes input: the text left after a match is shorter than the
text the matcher was applied to. -/
def Consuming {α : Type} (m : Matcher α) : Prop :=
  ∀ s p rest, m s = some (p, rest) → rest.length < s.length

/-- Whether the expression matches at some position of the text. -/
def anyMatch {α : Type} (m : Matcher α) : Str → Bool
  | [] => false
  | c :: r => (m (c :: r)).isSome || anyMatch m r

/-- The text contains a bare key: the expression of step 1 of `fixJSON` matches
somewhere (`{` or `,`, optional whitespace, identifier characters, optional
whitespace, colon). -/
def hasBareKey (s : Str) : Bool := anyMatch keyRule s

/-- The text contains a trailing comma: the expression of step 2 of `fixJSON`
matches somewhere (a comma followed, after optional whitespace, by `}` or
`]`). -/
def hasTrailingComma (s : Str) : Bool := anyMatch commaRule s

/-- The expression `,\s*,` at a position: a comma followed, after optional
whitespace, by another comma. -/
def commaRunRule : Matcher Unit := fun s =>
  match s with
  | ',' :: r =>
    match r.dropWhile isSpace with
    | ',' :: rest => some ((), rest)
    | _ => none
  | _ => none

/-- The text contains a comma followed, after optional whitespace, by another
comma. -/
def hasCommaRun (s : Str) : Bool := anyMatch commaRunRule s

/-- The effect of step 3 of `fixJSON` on one character. -/
def unquote (c : Char) : Char := if c == '\'' then '"' else c

/-- Third phase of the key expression: optional whitespace, then a colon. -/
def keyPhase3 (s : Str) : Bool := (s.dropWhile isSpace).head? == some ':'

/-- Second phase of the key expression: the rest of the identifier, then the
third phase. -/
def keyPhase2 (s : Str) : Bool := keyPhase3 (s.dropWhile isWordCh)

/-- The key expression after its opening `{` or `,`. -/
def keyTail (s : Str) : Bool :=
  !((s.dropWhile isSpace).takeWhile isWordCh).isEmpty && keyPhase2 (s.dropWhile isSpace)

/-- The text is empty or starts with a character that is neither whitespace
nor an identifier character. -/
def StopHead (z : Str) : Prop :=
  ∀ d, z.head? = some d → isSpace d = false ∧ isWordCh d = false

/-- The first character after optional whitespace, if any. -/
def firstNonSpace (s : Str) : Option Char := (s.dropWhile isSpace).head?

/-- Whether a recorded call is a call to `JSON.parse`. -/
def isParseCall : Call → Bool
  | Call.jsonParse _ => true
  | Call.fixJSON _ => false

/-- Worker of `isOneObject`: the brace depth before the next character. -/
def spanDepth : Nat → Str → Bool
  | _, [] => false
  | d, c :: r =>
    if c == '{' then spanDepth (d + 1) r
    else if c == '}' then
      if d == 0 then false
      else if d == 1 then r.isEmpty
      else spanDepth (d - 1) r
    else if d == 0 then false
    else spanDepth d r

/-- The text is one brace-balanced object: it starts with `{` and its brace
depth returns to 0 at its last character and not before. -/
def isOneObject (s : Str) : Bool := spanDepth 0 s

/-- The texts `ms` occur in `text` one after the other, in this order and
without overlap. -/
inductive SpansOf : List Str → Str → Prop where
  | nil (text : Str) : SpansOf [] text
  | cons (pre m rest : Str) (ms : List Str) : SpansOf ms rest → SpansOf (m :: ms) (pre ++ m ++ rest)

mutual
/-- Two documents are equal as documents: the same scalar, arrays with equal
elements in the same order, objects with the same keys and equal values under
each key, whatever the order of the keys. -/
def docEq : JVal → JVal → Bool
  | JVal.null, JVal.null => true
  | JVal.bool a, JVal.bool b => a == b
  | JVal.num a, JVal.num b => decide (a = b)
  | JVal.str a, JVal.str b => a == b
  | JVal.arr xs, JVal.arr ys => itemsEq xs ys
  | JVal.obj p, JVal.obj q => p.length == q.length && propsEq p q
  | _, _ => false
/-- The elements of two arrays are pairwise equal as documents. -/
def itemsEq : List JVal → List JVal → Bool
  | [], [] => true
  | x :: xs, y :: ys => docEq x y && itemsEq xs ys
  | _, _ => false
/-- Every property of the first list has an equal value under its key in the
second. -/
def propsEq : List (List Nat × JVal) → List (List Nat × JVal) → Bool
  | [], _ => true
  | p :: ps, q =>
    (match q.lookup p.1 with
     | some w => docEq p.2 w
     | none => false) && propsEq ps q
end

/-- The branch of the loop of `compare` that lists a key under `added`. -/
def isAdded (obj1 : Obj) (key : Key) : Bool := !hasProperty obj1 key

/-- The branch that lists a key under `removed`. -/
def isRemoved (obj1 obj2 : Obj) (key : Key) : Bool :=
  hasProperty obj1 key && !hasProperty obj2 key

/-- The branch that lists a key under `changed`. -/
def isChanged (obj1 obj2 : Obj) (key : Key) : Bool :=
  hasProperty obj1 key && hasProperty obj2 key &&
    (stringifyJs (getProp obj1 key) != stringifyJs (getProp obj2 key))

/-- The branch that lists a key under `unchanged`. -/
def isUnchanged (obj1 obj2 : Obj) (key : Key) : Bool :=
  hasProperty obj1 key && hasProperty obj2 key &&
    !(stringifyJs (getProp obj1 key) != stringifyJs (getProp obj2 key))

/-! ## Properties of the drivers -/

theorem anyMatch_cons {α : Type} (m : Matcher α) (c : Char) (r : Str) :
    anyMatch m (c :: r) = ((m (c :: r)).isSome || anyMatch m r) := rfl

theorem replaceAllAux_nil (m : Matcher Str) (n : Nat) : replaceAllAux m n [] = [] := by
  cases n <;> rfl

theorem replaceAllAux_fuel {m : Matcher Str} (hm : Consuming m) :
    ∀ n s, s.length ≤ n → replaceAllAux m n s = replaceAllAux m s.length s := by
  intro n
  induction n using Nat.strong_induction_on with
  | _ n ih =>
    intro s hs
    cases s with
    | nil => simp [replaceAllAux_nil]
    | cons c r =>
      cases n with
      | zero => simp at hs
      | succ k =>
        have hk : r.length ≤ k := by simpa using hs
        simp only [List.length_cons, replaceAllAux]
        cases hmc : m (c :: r) with
        | none =>
          simp only
          rw [ih k (Nat.lt_succ_self k) r hk]
        | some pr =>
          obtain ⟨rep, rest⟩ := pr
          have hlt : rest.length < (c :: r).length := hm _ _ _ hmc
          have hle : rest.length ≤ r.length := by simpa [Nat.lt_succ_iff] using hlt
          simp only
          rw [ih k (Nat.lt_succ_self k) rest (le_trans hle hk)]
          rcases Nat.eq_or_lt_of_le hk with heq | hlt2
          · rw [heq, ih k (Nat.lt_succ_self k) rest (le_trans hle hk)]
          · rw [ih r.length (Nat.lt_succ_of_lt hlt2) rest hle]

theorem replaceAll_nil (m : Matcher Str) : replaceAll m [] = [] := rfl

theorem replaceAll_cons_none {m : Matcher Str} {c : Char} {r : Str} (h : m (c :: r) = none) :
    replaceAll m (c :: r) = c :: replaceAll m r := by
  simp [replaceAll, replaceAllAux, h]

theorem replaceAll_cons_some {m : Matcher Str} (hm : Consuming m) {c : Char} {r rep rest : Str}
    (h : m (c :: r) = some (rep, rest)) :
    replaceAll m (c :: r) = rep ++ replaceAll m rest := by
  have hlt : rest.length < (c :: r).length := hm _ _ _ h
  have hle : rest.length ≤ r.length := by simpa [Nat.lt_succ_iff] using hlt
  simp only [replaceAll, List.length_cons, replaceAllAux, h]
  rw [replaceAllAux_fuel hm r.length rest hle]

theorem replaceAll_of_not_anyMatch {m : Matcher Str} :
    ∀ s, anyMatch m s = false → replaceAll m s = s
  | [], _ => rfl
  | c :: r, h => by
    simp only [anyMatch, Bool.or_eq_false_iff] at h
    have hn : m (c :: r) = none := by
      cases hmc : m (c :: r) with
      | none => rfl
      | some p => simp [hmc] at h
    rw [replaceAll_cons_none hn, replaceAll_of_not_anyMatch r h.2]

theorem replaceAll_append_left {m : Matcher Str} (z : Str) :
    ∀ p : Str, (∀ c ∈ p, ∀ t, m (c :: t) = none) → replaceAll m (p ++ z) = p ++ replaceAll m z
  | [], _ => rfl
  | a :: p, h => by
    have ha : m (a :: (p ++ z)) = none := h a (List.mem_cons_self _ _) _
    rw [List.cons_append, replaceAll_cons_none ha,
      replaceAll_append_left z p (fun c hc t => h c (List.mem_cons_of_mem _ hc) t)]
    rfl

theorem anyMatch_append_left {α : Type} {m : Matcher α} (z : Str) :
    ∀ p : Str, (∀ c ∈ p, ∀ t, m (c :: t) = none) → anyMatch m (p ++ z) = anyMatch m z
  | [], _ => rfl
  | a :: p, h => by
    have ha : m (a :: (p ++ z)) = none := h a (List.mem_cons_self _ _) _
    rw [List.cons_append, anyMatch_cons, ha,
      anyMatch_append_left z p (fun c hc t => h c (List.mem_cons_of_mem _ hc) t)]
    rfl

theorem anyMatch_of_suffix {α : Type} {m : Matcher α} :
    ∀ (s t : Str), t <:+ s → anyMatch m s = false → anyMatch m t = false
  | [], t, hts, _ => by
    have : t = [] := List.suffix_nil.mp hts
    subst this; rfl
  | c :: r, t, hts, h => by
    rcases List.suffix_cons_iff.mp hts with heq | hsuf
    · rw [heq]; exact h
    · simp only [anyMatch, Bool.or_eq_false_iff] at h
      exact anyMatch_of_suffix r t hsuf h.2

theorem matchAllAux_nil (m : Matcher Str) (n : Nat) : matchAllAux m n [] = [] := by
  cases n <;> rfl

theorem matchAllAux_fuel {m : Matcher Str} (hm : Consuming m) :
    ∀ n s, s.length ≤ n → matchAllAux m n s = matchAllAux m s.length s := by
  intro n
  induction n using Nat.strong_induction_on with
  | _ n ih =>
    intro s hs
    cases s with
    | nil => simp [matchAllAux_nil]
    | cons c r =>
      cases n with
      | zero => simp at hs
      | succ k =>
        have hk : r.length ≤ k := by simpa using hs
        simp only [List.length_cons, matchAllAux]
        cases hmc : m (c :: r) with
        | none =>
          simp only
          rw [ih k (Nat.lt_succ_self k) r hk]
        | some pr =>
          obtain ⟨rep, rest⟩ := pr
          have hlt : rest.length < (c :: r).length := hm _ _ _ hmc
          have hle : rest.length ≤ r.length := by simpa [Nat.lt_succ_iff] using hlt
          simp only
          rw [ih k (Nat.lt_succ_self k) rest (le_trans hle hk)]
          rcases Nat.eq_or_lt_of_le hk with heq | hlt2
          · rw [heq, ih k (Nat.lt_succ_self k) rest (le_trans hle hk)]
          · rw [ih r.length (Nat.lt_succ_of_lt hlt2) rest hle]

theorem matchAll_nil (m : Matcher Str) : matchAll m [] = [] := rfl

theorem matchAll_cons_none {m : Matcher Str} {c : Char} {r : Str} (h : m (c :: r) = none) :
    matchAll m (c :: r) = matchAll m r := by
  simp [matchAll, matchAllAux, h]

theorem matchAll_cons_some {m : Matcher Str} (hm : Consuming m) {c : Char} {r hit rest : Str}
    (h : m (c :: r) = some (hit, rest)) :
    matchAll m (c :: r) = hit :: matchAll m rest := by
  have hlt : rest.length < (c :: r).length := hm _ _ _ h
  have hle : rest.length ≤ r.length := by simpa [Nat.lt_succ_iff] using hlt
  simp only [matchAll, List.length_cons, matchAllAux, h]
  rw [matchAllAux_fuel hm r.length rest hle]

/-! ## Character classes -/

theorem isWordCh_of_isSpace {c : Char} (h : isSpace c = true) : isWordCh c = false := by
  simp only [isSpace, Bool.or_eq_true, Bool.and_eq_true, decide_eq_true_eq, beq_iff_eq] at h
  simp only [isWordCh, Bool.or_eq_false_iff, Bool.and_eq_false_iff, decide_eq_false_iff_not,
    beq_eq_false_iff_ne]
  omega

theorem isSpace_of_isWordCh {c : Char} (h : isWordCh c = true) : isSpace c = false := by
  cases hs : isSpace c with
  | false => rfl
  | true => rw [isWordCh_of_isSpace hs] at h; cases h

theorem isOpener_iff {c : Char} : isOpener c = true ↔ c = '{' ∨ c = ',' := by
  simp [isOpener]

theorem isCloser_iff {c : Char} : isCloser c = true ↔ c = '}' ∨ c = ']' := by
  simp [isCloser]

theorem isSpace_of_isOpener {c : Char} (h : isOpener c = true) : isSpace c = false := by
  rcases isOpener_iff.mp h with rfl | rfl <;> decide

theorem isWordCh_of_isOpener {c : Char} (h : isOpener c = true) : isWordCh c = false := by
  rcases isOpener_iff.mp h with rfl | rfl <;> decide

theorem isSpace_of_isCloser {c : Char} (h : isCloser c = true) : isSpace c = false := by
  rcases isCloser_iff.mp h with rfl | rfl <;> decide

theorem isWordCh_of_isCloser {c : Char} (h : isCloser c = true) : isWordCh c = false := by
  rcases isCloser_iff.mp h with rfl | rfl <;> decide

theorem isOpener_of_isSpace {c : Char} (h : isSpace c = true) : isOpener c = false := by
  cases ho : isOpener c with
  | false => rfl
  | true => rw [isSpace_of_isOpener ho] at h; cases h

theorem isOpener_of_isWordCh {c : Char} (h : isWordCh c = true) : isOpener c = false := by
  cases ho : isOpener c with
  | false => rfl
  | true => rw [isWordCh_of_isOpener ho] at h; cases h

theorem ne_colon_of_isSpace {c : Char} (h : isSpace c = true) : c ≠ ':' := by
  rintro rfl; revert h; decide

theorem ne_colon_of_isWordCh {c : Char} (h : isWordCh c = true) : c ≠ ':' := by
  rintro rfl; revert h; decide

theorem ne_comma_of_isSpace {c : Char} (h : isSpace c = true) : c ≠ ',' := by
  rintro rfl; revert h; decide

theorem unquote_eq_self {c : Char} (h : c ≠ '\'') : unquote c = c := by
  simp [unquote, h]

theorem isSpace_unquote (c : Char) : isSpace (unquote c) = isSpace c := by
  unfold unquote; split
  · next h => rw [beq_iff_eq] at h; subst h; decide
  · rfl

theorem isWordCh_unquote (c : Char) : isWordCh (unquote c) = isWordCh c := by
  unfold unquote; split
  · next h => rw [beq_iff_eq] at h; subst h; decide
  · rfl

theorem isOpener_unquote (c : Char) : isOpener (unquote c) = isOpener c := by
  unfold unquote; split
  · next h => rw [beq_iff_eq] at h; subst h; decide
  · rfl

theorem isCloser_unquote (c : Char) : isCloser (unquote c) = isCloser c := by
  unfold unquote; split
  · next h => rw [beq_iff_eq] at h; subst h; decide
  · rfl

theorem unquote_eq_colon {c : Char} : unquote c = ':' ↔ c = ':' := by
  unfold unquote; split
  · next h => rw [beq_iff_eq] at h; subst h; decide
  · rfl

theorem unquote_eq_comma {c : Char} : unquote c = ',' ↔ c = ',' := by
  unfold unquote; split
  · next h => rw [beq_iff_eq] at h; subst h; decide
  · rfl

theorem unquote_ne_quote (c : Char) : unquote c ≠ '\'' := by
  unfold unquote; split
  · decide
  · next h => simpa using h

/-! ## The key expression, phase by phase -/

theorem keyPhase3_nil : keyPhase3 [] = false := rfl

theorem keyPhase3_cons_space {a : Char} (s : Str) (h : isSpace a = true) :
    keyPhase3 (a :: s) = keyPhase3 s := by
  simp [keyPhase3, List.dropWhile_cons_of_pos h]

theorem keyPhase3_cons_nonspace {a : Char} (s : Str) (h : isSpace a = false) :
    keyPhase3 (a :: s) = (a == ':') := by
  have h' : ¬ isSpace a = true := by simp [h]
  simp [keyPhase3, List.dropWhile_cons_of_neg h']

theorem keyPhase2_nil : keyPhase2 [] = false := rfl

theorem keyPhase2_cons_word {a : Char} (s : Str) (h : isWordCh a = true) :
    keyPhase2 (a :: s) = keyPhase2 s := by
  simp [keyPhase2, List.dropWhile_cons_of_pos h]

theorem keyPhase2_cons_nonword {a : Char} (s : Str) (h : isWordCh a = false) :
    keyPhase2 (a :: s) = keyPhase3 (a :: s) := by
  have h' : ¬ isWordCh a = true := by simp [h]
  simp [keyPhase2, List.dropWhile_cons_of_neg h']

theorem keyTail_nil : keyTail [] = false := rfl

theorem keyTail_cons_space {a : Char} (s : Str) (h : isSpace a = true) :
    keyTail (a :: s) = keyTail s := by
  simp [keyTail, List.dropWhile_cons_of_pos h]

theorem keyTail_cons_word {a : Char} (s : Str) (h : isWordCh a = true) :
    keyTail (a :: s) = keyPhase2 s := by
  have hs : ¬ isSpace a = true := by simp [isSpace_of_isWordCh h]
  simp [keyTail, List.dropWhile_cons_of_neg hs, List.takeWhile_cons_of_pos h,
    keyPhase2_cons_word s h]

theorem keyTail_cons_stop {a : Char} (s : Str) (hs : isSpace a = false) (hw : isWordCh a = false) :
    keyTail (a :: s) = false := by
  have hs' : ¬ isSpace a = true := by simp [hs]
  have hw' : ¬ isWordCh a = true := by simp [hw]
  simp [keyTail, List.dropWhile_cons_of_neg hs', List.takeWhile_cons_of_neg hw']

theorem stopHead_nil : StopHead [] := by
  intro d h; simp at h

theorem stopHead_cons {d : Char} (t : Str) (hs : isSpace d = false) (hw : isWordCh d = false) :
    StopHead (d :: t) := by
  intro e h
  simp only [List.head?_cons, Option.some.injEq] at h
  subst h; exact ⟨hs, hw⟩

theorem stopHead_dropWhile (s : Str) :
    StopHead (s.dropWhile (fun c => isSpace c || isWordCh c)) := by
  intro d h
  have := List.head?_dropWhile_not (fun c => isSpace c || isWordCh c) s
  rw [h] at this
  simpa using this

theorem keyPhase3_congr {z z' : Str} (h : z.head? = z'.head?) (hz : StopHead z) :
    ∀ p : Str, keyPhase3 (p ++ z) = keyPhase3 (p ++ z')
  | [] => by
    cases z with
    | nil =>
      cases z' with
      | nil => rfl
      | cons d t => simp at h
    | cons d t =>
      cases z' with
      | nil => simp at h
      | cons d' t' =>
        simp only [List.head?_cons, Option.some.injEq] at h
        subst h
        have hd := (hz d rfl).1
        simp [keyPhase3_cons_nonspace _ hd]
  | a :: p => by
    cases ha : isSpace a with
    | true =>
      simp only [List.cons_append, keyPhase3_cons_space _ ha]
      exact keyPhase3_congr h hz p
    | false => simp only [List.cons_append, keyPhase3_cons_nonspace _ ha]

theorem keyPhase2_congr {z z' : Str} (h : z.head? = z'.head?) (hz : StopHead z) :
    ∀ p : Str, keyPhase2 (p ++ z) = keyPhase2 (p ++ z')
  | [] => by
    cases z with
    | nil =>
      cases z' with
      | nil => rfl
      | cons d t => simp at h
    | cons d t =>
      cases z' with
      | nil => simp at h
      | cons d' t' =>
        simp only [List.head?_cons, Option.some.injEq] at h
        subst h
        have hd := hz d rfl
        simp [keyPhase2_cons_nonword _ hd.2, keyPhase3_cons_nonspace _ hd.1]
  | a :: p => by
    cases ha : isWordCh a with
    | true =>
      simp only [List.cons_append, keyPhase2_cons_word _ ha]
      exact keyPhase2_congr h hz p
    | false =>
      simp only [List.cons_append, keyPhase2_cons_nonword _ ha]
      exact keyPhase3_congr h hz (a :: p)

theorem keyTail_congr {z z' : Str} (h : z.head? = z'.head?) (hz : StopHead z) :
    ∀ p : Str, keyTail (p ++ z) = keyTail (p ++ z')
  | [] => by
    cases z with
    | nil =>
      cases z' with
      | nil => rfl
      | cons d t => simp at h
    | cons d t =>
      cases z' with
      | nil => simp at h
      | cons d' t' =>
        simp only [List.head?_cons, Option.some.injEq] at h
        subst h
        have hd := hz d rfl
        simp [keyTail_cons_stop _ hd.1 hd.2]
  | a :: p => by
    cases ha : isSpace a with
    | true =>
      simp only [List.cons_append, keyTail_cons_space _ ha]
      exact keyTail_congr h hz p
    | false =>
      cases hw : isWordCh a with
      | true =>
        simp only [List.cons_append, keyTail_cons_word _ hw]
        exact keyPhase2_congr h hz p
      | false => simp only [List.cons_append, keyTail_cons_stop _ ha hw]

theorem keyPhase3_false {z : Str} (hz : StopHead z) (hc : z.head? ≠ some ':') :
    ∀ p : Str, (∀ c ∈ p, isSpace c = true ∨ isWordCh c = true) → keyPhase3 (p ++ z) = false
  | [], _ => by
    cases z with
    | nil => rfl
    | cons d t =>
      have hd := hz d rfl
      simp only [List.nil_append, keyPhase3_cons_nonspace _ hd.1]
      simpa using hc
  | a :: p, hp => by
    have hp' : ∀ c ∈ p, isSpace c = true ∨ isWordCh c = true :=
      fun c hc => hp c (List.mem_cons_of_mem _ hc)
    cases ha : isSpace a with
    | true =>
      simp only [List.cons_append, keyPhase3_cons_space _ ha]
      exact keyPhase3_false hz hc p hp'
    | false =>
      have hw : isWordCh a = true := by
        rcases hp a (List.mem_cons_self _ _) with h | h
        · rw [ha] at h; cases h
        · exact h
      simp only [List.cons_append, keyPhase3_cons_nonspace _ ha]
      simpa using ne_colon_of_isWordCh hw

theorem keyPhase2_false {z : Str} (hz : StopHead z) (hc : z.head? ≠ some ':') :
    ∀ p : Str, (∀ c ∈ p, isSpace c = true ∨ isWordCh c = true) → keyPhase2 (p ++ z) = false
  | [], _ => by
    cases z with
    | nil => rfl
    | cons d t =>
      have hd := hz d rfl
      simp only [List.nil_append, keyPhase2_cons_nonword _ hd.2]
      exact keyPhase3_false hz hc [] (by simp)
  | a :: p, hp => by
    have hp' : ∀ c ∈ p, isSpace c = true ∨ isWordCh c = true :=
      fun c hc => hp c (List.mem_cons_of_mem _ hc)
    cases ha : isWordCh a with
    | true =>
      simp only [List.cons_append, keyPhase2_cons_word _ ha]
      exact keyPhase2_false hz hc p hp'
    | false =>
      simp only [List.cons_append, keyPhase2_cons_nonword _ ha]
      exact keyPhase3_false hz hc (a :: p) hp

theorem keyTail_false {z : Str} (hz : StopHead z) (hc : z.head? ≠ some ':') :
    ∀ p : Str, (∀ c ∈ p, isSpace c = true ∨ isWordCh c = true) → keyTail (p ++ z) = false
  | [], _ => by
    cases z with
    | nil => rfl
    | cons d t =>
      have hd := hz d rfl
      simp only [List.nil_append, keyTail_cons_stop _ hd.1 hd.2]
  | a :: p, hp => by
    have hp' : ∀ c ∈ p, isSpace c = true ∨ isWordCh c = true :=
      fun c hc => hp c (List.mem_cons_of_mem _ hc)
    cases ha : isSpace a with
    | true =>
      simp only [List.cons_append, keyTail_cons_space _ ha]
      exact keyTail_false hz hc p hp'
    | false =>
      have hw : isWordCh a = true := by
        rcases hp a (List.mem_cons_self _ _) with h | h
        · rw [ha] at h; cases h
        · exact h
      simp only [List.cons_append, keyTail_cons_word _ hw]
      exact keyPhase2_false hz hc p hp'

theorem keyMatch_cons (c : Char) (r : Str) :
    keyMatch (c :: r) =
      if isOpener c then
        if ((r.dropWhile isSpace).takeWhile isWordCh).isEmpty then none
        else
          match ((r.dropWhile isSpace).dropWhile isWordCh).dropWhile isSpace with
          | ':' :: rest =>
            some (c :: r.takeWhile isSpace, (r.dropWhile isSpace).takeWhile isWordCh, rest)
          | _ => none
      else none := rfl

theorem keyMatch_isSome (c : Char) (r : Str) :
    (keyMatch (c :: r)).isSome = (isOpener c && keyTail r) := by
  rw [keyMatch_cons]
  unfold keyTail keyPhase2 keyPhase3
  generalize List.takeWhile isSpace r = w
  generalize List.takeWhile isWordCh (List.dropWhile isSpace r) = ky
  generalize ((r.dropWhile isSpace).dropWhile isWordCh).dropWhile isSpace = T
  cases isOpener c with
  | false => rfl
  | true =>
    cases ky.isEmpty with
    | true => rfl
    | false =>
      cases T with
      | nil => rfl
      | cons d t =>
        by_cases hd : d = ':'
        · subst hd; rfl
        · simp only [if_true, Bool.false_eq_true, if_false, Bool.not_false, Bool.true_and,
            List.head?_cons]
          split
          · next heq => simp only [List.cons.injEq] at heq; exact absurd heq.1 hd
          · simp [hd]

theorem keyMatch_some {c : Char} {r g1 key rest : Str}
    (h : keyMatch (c :: r) = some (g1, key, rest)) :
    isOpener c = true ∧ g1 = c :: r.takeWhile isSpace ∧
      key = (r.dropWhile isSpace).takeWhile isWordCh ∧
      ((r.dropWhile isSpace).dropWhile isWordCh).dropWhile isSpace = ':' :: rest := by
  rw [keyMatch_cons] at h
  cases ho : isOpener c with
  | false => simp [ho] at h
  | true =>
    simp only [ho, if_true] at h
    cases hk : ((r.dropWhile isSpace).takeWhile isWordCh).isEmpty with
    | true => simp only [hk, if_true] at h; cases h
    | false =>
      simp only [hk, Bool.false_eq_true, if_false] at h
      split at h
      · next rest' heq =>
        simp only [Option.some.injEq, Prod.mk.injEq] at h
        obtain ⟨h1, h2, h3⟩ := h
        subst h1 h2 h3
        exact ⟨rfl, rfl, rfl, heq⟩
      · cases h

/-! ## The rules of `fixJSON` -/

theorem length_dropWhile_le' (p : Char → Bool) (l : Str) : (l.dropWhile p).length ≤ l.length :=
  (List.dropWhile_suffix p).length_le

theorem keyRule_isSome (c : Char) (r : Str) :
    (keyRule (c :: r)).isSome = (isOpener c && keyTail r) := by
  rw [keyRule, Option.isSome_map', keyMatch_isSome]

theorem keyRule_nil : keyRule [] = none := rfl

theorem keyRule_some {c : Char} {r rep rest : Str} (h : keyRule (c :: r) = some (rep, rest)) :
    isOpener c = true ∧
      rep = c :: (r.takeWhile isSpace ++
        '"' :: ((r.dropWhile isSpace).takeWhile isWordCh ++ ['"', ':'])) ∧
      ((r.dropWhile isSpace).dropWhile isWordCh).dropWhile isSpace = ':' :: rest := by
  unfold keyRule at h
  cases hk : keyMatch (c :: r) with
  | none => simp [hk] at h
  | some g =>
    obtain ⟨g1, key, rest'⟩ := g
    simp only [hk, Option.map_some', Option.some.injEq, Prod.mk.injEq] at h
    obtain ⟨h1, h2⟩ := h
    obtain ⟨ho, hg1, hkey, hrest⟩ := keyMatch_some hk
    subst h2 hg1 hkey
    refine ⟨ho, ?_, hrest⟩
    rw [← h1]; simp

theorem keyRule_none_of_not_opener {c : Char} (h : isOpener c = false) (t : Str) :
    keyRule (c :: t) = none := by
  have := keyRule_isSome c t
  rw [h, Bool.false_and] at this
  cases hk : keyRule (c :: t) with
  | none => rfl
  | some p => rw [hk] at this; cases this

theorem consuming_keyRule : Consuming keyRule := by
  intro s rep rest h
  cases s with
  | nil => cases h
  | cons c r =>
    obtain ⟨_, _, hrest⟩ := keyRule_some h
    have h1 := length_dropWhile_le' isSpace ((r.dropWhile isSpace).dropWhile isWordCh)
    have h2 := length_dropWhile_le' isWordCh (r.dropWhile isSpace)
    have h3 := length_dropWhile_le' isSpace r
    rw [hrest] at h1
    simp only [List.length_cons] at h1 ⊢
    omega

theorem commaRule_nil : commaRule [] = none := rfl

theorem commaRule_isSome (c : Char) (r : Str) :
    (commaRule (c :: r)).isSome = (c == ',' && (firstNonSpace r).any isCloser) := by
  unfold commaRule firstNonSpace
  by_cases hc : c = ','
  · subst hc
    simp only
    generalize r.takeWhile isSpace = w
    generalize r.dropWhile isSpace = T
    cases T with
    | nil => rfl
    | cons d t =>
      cases hcl : isCloser d <;> simp [hcl]
  · have : (c == ',') = false := by simpa using hc
    rw [this, Bool.false_and]
    split
    · next heq => simp only [List.cons.injEq] at heq; exact absurd heq.1 hc
    · rfl

theorem commaRule_some {c : Char} {r rep rest : Str} (h : commaRule (c :: r) = some (rep, rest)) :
    c = ',' ∧ ∃ cl, isCloser cl = true ∧ rep = r.takeWhile isSpace ++ [cl] ∧
      r.dropWhile isSpace = cl :: rest := by
  unfold commaRule at h
  split at h
  · next r' heq =>
    simp only [List.cons.injEq] at heq
    obtain ⟨hc, hr⟩ := heq
    subst hc hr
    refine ⟨rfl, ?_⟩
    split at h
    · next d t hd =>
      cases hcl : isCloser d with
      | false => simp [hcl] at h
      | true =>
        simp only [hcl, if_true, Option.some.injEq, Prod.mk.injEq] at h
        exact ⟨d, hcl, h.1.symm, by rw [hd, h.2]⟩
    · cases h
  · cases h

theorem commaRule_none_of_ne {c : Char} (h : c ≠ ',') (t : Str) : commaRule (c :: t) = none := by
  have := commaRule_isSome c t
  have hc : (c == ',') = false := by simpa using h
  rw [hc, Bool.false_and] at this
  cases hk : commaRule (c :: t) with
  | none => rfl
  | some p => rw [hk] at this; cases this

theorem consuming_commaRule : Consuming commaRule := by
  intro s rep rest h
  cases s with
  | nil => cases h
  | cons c r =>
    obtain ⟨_, cl, _, _, hrest⟩ := commaRule_some h
    have h3 := length_dropWhile_le' isSpace r
    rw [hrest] at h3
    simp only [List.length_cons] at h3 ⊢
    omega

theorem consuming_quoteRule : Consuming quoteRule := by
  intro s rep rest h
  unfold quoteRule at h
  split at h
  · simp only [Option.some.injEq, Prod.mk.injEq] at h
    rw [← h.2]; simp
  · cases h

theorem replaceAll_quoteRule : ∀ s : Str, replaceAll quoteRule s = s.map unquote
  | [] => rfl
  | c :: r => by
    by_cases hc : c = '\''
    · subst hc
      have h : quoteRule ('\'' :: r) = some (['"'], r) := rfl
      rw [replaceAll_cons_some consuming_quoteRule h, replaceAll_quoteRule r]
      rfl
    · have h : quoteRule (c :: r) = none := by
        unfold quoteRule
        split
        · next heq => simp only [List.cons.injEq] at heq; exact absurd heq.1 hc
        · rfl
      rw [replaceAll_cons_none h, replaceAll_quoteRule r, List.map_cons, unquote_eq_self hc]

/-- A trailing comma is simply dropped: the whitespace and the closer that
follow it are copied. -/
theorem replaceAll_commaRule_cons_some {c : Char} {r rep rest : Str}
    (h : commaRule (c :: r) = some (rep, rest)) :
    replaceAll commaRule (c :: r) = replaceAll commaRule r := by
  obtain ⟨_, cl, hcl, hrep, hrest⟩ := commaRule_some h
  rw [replaceAll_cons_some consuming_commaRule h, hrep]
  conv_rhs => rw [← List.takeWhile_append_dropWhile isSpace r, hrest]
  rw [replaceAll_append_left]
  · have hne : cl ≠ ',' := by
      rintro rfl; revert hcl; decide
    rw [replaceAll_cons_none (commaRule_none_of_ne hne rest)]
    simp
  · intro x hx t
    exact commaRule_none_of_ne (ne_comma_of_isSpace (List.mem_takeWhile_imp hx)) t

theorem head?_replaceAll_keyRule (z : Str) : (replaceAll keyRule z).head? = z.head? := by
  cases z with
  | nil => rfl
  | cons d t =>
    cases hk : keyRule (d :: t) with
    | none => rw [replaceAll_cons_none hk]; rfl
    | some p =>
      obtain ⟨rep, rest⟩ := p
      obtain ⟨_, hrep, _⟩ := keyRule_some hk
      rw [replaceAll_cons_some consuming_keyRule hk, hrep]; rfl

theorem not_opener_of_nonStop {c : Char} (h : (isSpace c || isWordCh c) = true) :
    isOpener c = false := by
  rcases Bool.or_eq_true_iff.mp h with h | h
  · exact isOpener_of_isSpace h
  · exact isOpener_of_isWordCh h

theorem nonStop_takeWhile (r : Str) :
    ∀ c ∈ r.takeWhile (fun c => isSpace c || isWordCh c), isSpace c = true ∨ isWordCh c = true := by
  intro c hc
  have := List.mem_takeWhile_imp hc
  simpa using this

theorem keyRule_none_of_nonStop {p : Str}
    (hp : ∀ c ∈ p, isSpace c = true ∨ isWordCh c = true) :
    ∀ c ∈ p, ∀ t, keyRule (c :: t) = none := by
  intro c hc t
  apply keyRule_none_of_not_opener
  rcases hp c hc with h | h
  · exact isOpener_of_isSpace h
  · exact isOpener_of_isWordCh h

theorem commaRule_none_of_nonStop {p : Str}
    (hp : ∀ c ∈ p, isSpace c = true ∨ isWordCh c = true) :
    ∀ c ∈ p, ∀ t, commaRule (c :: t) = none := by
  intro c hc t
  apply commaRule_none_of_ne
  rcases hp c hc with h | h
  · exact ne_comma_of_isSpace h
  · rintro rfl; revert h; decide

theorem keyTail_replaceAll_keyRule (r : Str) :
    keyTail (replaceAll keyRule r) = keyTail r := by
  have hdec := List.takeWhile_append_dropWhile (fun c => isSpace c || isWordCh c) r
  have hz := stopHead_dropWhile r
  have hp := nonStop_takeWhile r
  generalize r.takeWhile (fun c => isSpace c || isWordCh c) = p at hdec hp
  generalize r.dropWhile (fun c => isSpace c || isWordCh c) = z at hdec hz
  subst hdec
  rw [replaceAll_append_left z p (keyRule_none_of_nonStop hp)]
  exact (keyTail_congr (head?_replaceAll_keyRule z).symm hz p).symm

/-- Step 1 leaves no bare key behind. -/
theorem hasBareKey_replaceAll_keyRule (x : Str) : hasBareKey (replaceAll keyRule x) = false := by
  unfold hasBareKey
  generalize hn : x.length = n
  induction n using Nat.strong_induction_on generalizing x with
  | _ n ih =>
    cases x with
    | nil => rfl
    | cons c r =>
      cases hk : keyRule (c :: r) with
      | none =>
        rw [replaceAll_cons_none hk, anyMatch_cons, keyRule_isSome, keyTail_replaceAll_keyRule,
          ← keyRule_isSome, hk]
        simp only [List.length_cons] at hn
        exact ih r.length (by omega) r rfl
      | some pr =>
        obtain ⟨rep, rest⟩ := pr
        obtain ⟨ho, hrep, hrest⟩ := keyRule_some hk
        have hlen := consuming_keyRule _ _ _ hk
        rw [replaceAll_cons_some consuming_keyRule hk, hrep, List.cons_append, anyMatch_cons,
          keyRule_isSome]
        have h1 : keyTail (r.takeWhile isSpace ++
            '"' :: ((r.dropWhile isSpace).takeWhile isWordCh ++ ['"', ':']) ++
            replaceAll keyRule rest) = false := by
          rw [List.append_assoc]
          apply keyTail_false
          · intro d hd
            simp only [List.cons_append, List.head?_cons, Option.some.injEq] at hd
            subst hd; decide
          · simp
          · intro a ha; exact Or.inl (List.mem_takeWhile_imp ha)
        rw [h1, Bool.and_false, Bool.false_or, anyMatch_append_left]
        · exact ih rest.length (by rw [← hn]; exact hlen) rest rfl
        · intro a ha t
          apply keyRule_none_of_not_opener
          simp only [List.mem_append, List.mem_cons, List.mem_singleton, List.not_mem_nil,
            or_false] at ha
          rcases ha with ha | rfl | ha | rfl | rfl
          · exact isOpener_of_isSpace (List.mem_takeWhile_imp ha)
          · decide
          · exact isOpener_of_isWordCh (List.mem_takeWhile_imp ha)
          · decide
          · decide

theorem keyTail_of_replaceAll_commaRule (r : Str)
    (h : keyTail (replaceAll commaRule r) = true) : keyTail r = true := by
  have hdec := List.takeWhile_append_dropWhile (fun c => isSpace c || isWordCh c) r
  have hz := stopHead_dropWhile r
  have hp := nonStop_takeWhile r
  generalize r.takeWhile (fun c => isSpace c || isWordCh c) = p at hdec hp
  generalize r.dropWhile (fun c => isSpace c || isWordCh c) = z at hdec hz
  subst hdec
  rw [replaceAll_append_left z p (commaRule_none_of_nonStop hp)] at h
  cases z with
  | nil => rw [replaceAll_nil] at h; exact h
  | cons d t =>
    cases hk : commaRule (d :: t) with
    | none =>
      rw [replaceAll_cons_none hk] at h
      rw [← h]
      exact @keyTail_congr (d :: t) (d :: replaceAll commaRule t) rfl hz p
    | some pr =>
      obtain ⟨rep, rest⟩ := pr
      obtain ⟨_, cl, hcl, hrep, hrest⟩ := commaRule_some hk
      rw [replaceAll_cons_some consuming_commaRule hk, hrep, List.append_assoc,
        ← List.append_assoc p] at h
      rw [keyTail_false] at h
      · cases h
      · intro e he
        simp only [List.singleton_append, List.head?_cons, Option.some.injEq] at he
        subst he
        exact ⟨isSpace_of_isCloser hcl, isWordCh_of_isCloser hcl⟩
      · simp only [List.singleton_append, List.head?_cons, ne_eq, Option.some.injEq]
        rintro rfl; revert hcl; decide
      · intro a ha
        rcases List.mem_append.mp ha with ha | ha
        · exact hp a ha
        · exact Or.inl (List.mem_takeWhile_imp ha)

/-- Step 2 creates no bare key. -/
theorem hasBareKey_replaceAll_commaRule :
    ∀ t : Str, hasBareKey t = false → hasBareKey (replaceAll commaRule t) = false
  | [], _ => rfl
  | c :: r, h => by
    unfold hasBareKey at h ⊢
    rw [anyMatch_cons, Bool.or_eq_false_iff] at h
    have ih := hasBareKey_replaceAll_commaRule r h.2
    unfold hasBareKey at ih
    cases hk : commaRule (c :: r) with
    | some pr => rw [replaceAll_commaRule_cons_some hk]; exact ih
    | none =>
      rw [replaceAll_cons_none hk, anyMatch_cons, ih, Bool.or_false, keyRule_isSome]
      have h1 := h.1
      rw [keyRule_isSome] at h1
      cases ho : isOpener c with
      | false => rfl
      | true =>
        rw [ho, Bool.true_and] at h1
        rw [Bool.true_and]
        cases hkt : keyTail (replaceAll commaRule r) with
        | false => rfl
        | true => rw [keyTail_of_replaceAll_commaRule r hkt] at h1; cases h1

/-! ## Steps 3 and 4 against the expressions of steps 1 and 2 -/

theorem firstNonSpace_nil : firstNonSpace [] = none := rfl

theorem firstNonSpace_cons_space {a : Char} (s : Str) (h : isSpace a = true) :
    firstNonSpace (a :: s) = firstNonSpace s := by
  simp [firstNonSpace, List.dropWhile_cons_of_pos h]

theorem firstNonSpace_cons_nonspace {a : Char} (s : Str) (h : isSpace a = false) :
    firstNonSpace (a :: s) = some a := by
  have h' : ¬ isSpace a = true := by simp [h]
  simp [firstNonSpace, List.dropWhile_cons_of_neg h']

theorem firstNonSpace_map_unquote :
    ∀ s : Str, firstNonSpace (s.map unquote) = (firstNonSpace s).map unquote
  | [] => rfl
  | a :: s => by
    cases ha : isSpace a with
    | true =>
      have ha' : isSpace (unquote a) = true := by rw [isSpace_unquote, ha]
      rw [List.map_cons, firstNonSpace_cons_space _ ha', firstNonSpace_cons_space _ ha,
        firstNonSpace_map_unquote s]
    | false =>
      have ha' : isSpace (unquote a) = false := by rw [isSpace_unquote, ha]
      rw [List.map_cons, firstNonSpace_cons_nonspace _ ha', firstNonSpace_cons_nonspace _ ha]
      rfl

theorem firstNonSpace_append {d : Char} (w : Str) :
    ∀ s : Str, firstNonSpace s = some d → firstNonSpace (s ++ w) = some d
  | [], h => by cases h
  | a :: s, h => by
    cases ha : isSpace a with
    | true =>
      rw [firstNonSpace_cons_space _ ha] at h
      rw [List.cons_append, firstNonSpace_cons_space _ ha]
      exact firstNonSpace_append w s h
    | false =>
      rw [firstNonSpace_cons_nonspace _ ha] at h
      rw [List.cons_append, firstNonSpace_cons_nonspace _ ha]
      exact h

theorem firstNonSpace_of_spaces_append {w : Str} (hw : ∀ c ∈ w, isSpace c = true) (z : Str) :
    firstNonSpace (w ++ z) = firstNonSpace z := by
  induction w with
  | nil => rfl
  | cons a w ih =>
    rw [List.cons_append, firstNonSpace_cons_space _ (hw a (List.mem_cons_self _ _))]
    exact ih (fun c hc => hw c (List.mem_cons_of_mem _ hc))

theorem keyPhase3_map_unquote (s : Str) : keyPhase3 (s.map unquote) = keyPhase3 s := by
  show (firstNonSpace (s.map unquote) == some ':') = (firstNonSpace s == some ':')
  rw [firstNonSpace_map_unquote]
  cases h : firstNonSpace s with
  | none => rfl
  | some d =>
    simp only [Option.map_some']
    by_cases hd : d = ':'
    · subst hd; rfl
    · have h1 : unquote d ≠ ':' := fun hu => hd (unquote_eq_colon.mp hu)
      simp [hd, h1]

theorem keyPhase2_map_unquote : ∀ s : Str, keyPhase2 (s.map unquote) = keyPhase2 s
  | [] => rfl
  | a :: s => by
    cases ha : isWordCh a with
    | true =>
      have ha' : isWordCh (unquote a) = true := by rw [isWordCh_unquote, ha]
      rw [List.map_cons, keyPhase2_cons_word _ ha', keyPhase2_cons_word _ ha,
        keyPhase2_map_unquote s]
    | false =>
      have ha' : isWordCh (unquote a) = false := by rw [isWordCh_unquote, ha]
      rw [List.map_cons, keyPhase2_cons_nonword _ ha', keyPhase2_cons_nonword _ ha,
        ← List.map_cons, keyPhase3_map_unquote]

theorem keyTail_map_unquote : ∀ s : Str, keyTail (s.map unquote) = keyTail s
  | [] => rfl
  | a :: s => by
    cases ha : isSpace a with
    | true =>
      have ha' : isSpace (unquote a) = true := by rw [isSpace_unquote, ha]
      rw [List.map_cons, keyTail_cons_space _ ha', keyTail_cons_space _ ha,
        keyTail_map_unquote s]
    | false =>
      have ha' : isSpace (unquote a) = false := by rw [isSpace_unquote, ha]
      cases hw : isWordCh a with
      | true =>
        have hw' : isWordCh (unquote a) = true := by rw [isWordCh_unquote, hw]
        rw [List.map_cons, keyTail_cons_word _ hw', keyTail_cons_word _ hw,
          keyPhase2_map_unquote]
      | false =>
        have hw' : isWordCh (unquote a) = false := by rw [isWordCh_unquote, hw]
        rw [List.map_cons, keyTail_cons_stop _ ha' hw', keyTail_cons_stop _ ha hw]

/-- Step 3 neither creates nor destroys a bare key. -/
theorem hasBareKey_map_unquote : ∀ s : Str, hasBareKey (s.map unquote) = hasBareKey s
  | [] => rfl
  | a :: s => by
    have ih := hasBareKey_map_unquote s
    unfold hasBareKey at ih ⊢
    rw [List.map_cons, anyMatch_cons, anyMatch_cons, keyRule_isSome, keyRule_isSome, ih,
      isOpener_unquote, keyTail_map_unquote]

/-- Step 3 neither creates nor destroys a trailing comma. -/
theorem hasTrailingComma_map_unquote :
    ∀ s : Str, hasTrailingComma (s.map unquote) = hasTrailingComma s
  | [] => rfl
  | a :: s => by
    have ih := hasTrailingComma_map_unquote s
    unfold hasTrailingComma at ih ⊢
    rw [List.map_cons, anyMatch_cons, anyMatch_cons, commaRule_isSome, commaRule_isSome, ih,
      firstNonSpace_map_unquote]
    congr 1
    congr 1
    · by_cases ha : a = ','
      · subst ha; rfl
      · have h1 : unquote a ≠ ',' := fun hu => ha (unquote_eq_comma.mp hu)
        simp [ha, h1]
    · cases firstNonSpace s with
      | none => rfl
      | some d => simp [isCloser_unquote]

theorem keyTail_append (r w : Str) (h : keyTail r = true) : keyTail (r ++ w) = true := by
  have hdec := List.takeWhile_append_dropWhile (fun c => isSpace c || isWordCh c) r
  have hz := stopHead_dropWhile r
  have hp := nonStop_takeWhile r
  generalize r.takeWhile (fun c => isSpace c || isWordCh c) = p at hdec hp
  generalize r.dropWhile (fun c => isSpace c || isWordCh c) = z at hdec hz
  subst hdec
  by_cases hc : z.head? = some ':'
  · rw [List.append_assoc, ← h]
    apply keyTail_congr _ _ p
    · cases z with
      | nil => cases hc
      | cons d t => rfl
    · intro d hd
      apply hz d
      cases z with
      | nil => cases hc
      | cons e t => exact hd
  · rw [keyTail_false hz hc p hp] at h; cases h

theorem keyRule_isSome_append (c : Char) (r w : Str) (h : (keyRule (c :: r)).isSome = true) :
    (keyRule (c :: r ++ w)).isSome = true := by
  rw [keyRule_isSome, Bool.and_eq_true] at h
  rw [List.cons_append, keyRule_isSome, h.1, keyTail_append r w h.2]
  rfl

theorem commaRule_isSome_append (c : Char) (r w : Str) (h : (commaRule (c :: r)).isSome = true) :
    (commaRule (c :: r ++ w)).isSome = true := by
  rw [commaRule_isSome, Bool.and_eq_true] at h
  rw [List.cons_append, commaRule_isSome, h.1, Bool.true_and]
  cases hf : firstNonSpace r with
  | none => rw [hf] at h; exact absurd h.2 (by simp)
  | some d => rw [firstNonSpace_append w r hf]; rw [hf] at h; exact h.2

theorem anyMatch_of_append {α : Type} {m : Matcher α}
    (hm : ∀ c r w, (m (c :: r)).isSome = true → (m (c :: r ++ w)).isSome = true) (w : Str) :
    ∀ v : Str, anyMatch m (v ++ w) = false → anyMatch m v = false
  | [], _ => rfl
  | c :: r, h => by
    rw [List.cons_append, anyMatch_cons, Bool.or_eq_false_iff] at h
    rw [anyMatch_cons, anyMatch_of_append hm w r h.2, Bool.or_false]
    cases hc : (m (c :: r)).isSome with
    | false => rfl
    | true =>
      have := hm c r w hc
      rw [List.cons_append, h.1] at this
      cases this

/-! ## `trim` -/

theorem trim_eq (s : Str) : trim s = (s.dropWhile isSpace).rdropWhile isSpace := rfl

theorem trim_initial (s : Str) : trim s <+: s.dropWhile isSpace :=
  List.rdropWhile_prefix isSpace (s.dropWhile isSpace)

theorem mem_of_mem_trim {c : Char} {s : Str} (h : c ∈ trim s) : c ∈ s :=
  (List.dropWhile_suffix isSpace).subset ((trim_initial s).subset h)

theorem length_trim_le (s : Str) : (trim s).length ≤ s.length :=
  le_trans (trim_initial s).length_le (List.dropWhile_suffix isSpace).length_le

theorem anyMatch_trim {α : Type} {m : Matcher α}
    (hm : ∀ c r w, (m (c :: r)).isSome = true → (m (c :: r ++ w)).isSome = true)
    (s : Str) (h : anyMatch m s = false) : anyMatch m (trim s) = false := by
  obtain ⟨w, hw⟩ := trim_initial s
  apply anyMatch_of_append hm w
  rw [hw]
  exact anyMatch_of_suffix s _ (List.dropWhile_suffix isSpace) h

theorem rdropWhile_cons_of_neg {a : Char} (l : Str) (h : isSpace a = false) :
    ∃ l', List.rdropWhile isSpace (a :: l) = a :: l' := by
  obtain ⟨w, hw⟩ := List.rdropWhile_prefix isSpace (a :: l)
  cases hr : List.rdropWhile isSpace (a :: l) with
  | nil =>
    have := List.rdropWhile_eq_nil_iff.mp hr a (List.mem_cons_self _ _)
    rw [h] at this; cases this
  | cons b l' =>
    rw [hr] at hw
    simp only [List.cons_append, List.cons.injEq] at hw
    exact ⟨l', by rw [hw.1]⟩

theorem trim_trim (s : Str) : trim (trim s) = trim s := by
  rw [trim_eq s]
  cases hu : s.dropWhile isSpace with
  | nil => rfl
  | cons a l =>
    have ha : isSpace a = false := by
      have := List.head?_dropWhile_not isSpace s
      rw [hu] at this
      simpa using this
    obtain ⟨l', hl'⟩ := rdropWhile_cons_of_neg l ha
    have ha' : ¬ isSpace a = true := by simp [ha]
    rw [trim_eq, hl', List.dropWhile_cons_of_neg ha', ← hl', List.rdropWhile_idempotent]

theorem head?_trim_of_nonspace {a : Char} (l : Str) (h : isSpace a = false) :
    (trim (a :: l)).head? = some a := by
  have ha' : ¬ isSpace a = true := by simp [h]
  obtain ⟨l', hl'⟩ := rdropWhile_cons_of_neg l h
  rw [trim_eq, List.dropWhile_cons_of_neg ha', hl']
  rfl

/-! ## `fixJSON` as a whole -/

theorem fixJSON_eq (x : Str) :
    fixJSON x = trim ((replaceAll commaRule (replaceAll keyRule x)).map unquote) := by
  unfold fixJSON
  simp only [replaceAll_quoteRule]

theorem hasBareKey_fixJSON (x : Str) : hasBareKey (fixJSON x) = false := by
  rw [fixJSON_eq]
  apply anyMatch_trim keyRule_isSome_append
  show hasBareKey _ = false
  rw [hasBareKey_map_unquote]
  exact hasBareKey_replaceAll_commaRule _ (hasBareKey_replaceAll_keyRule x)

theorem quote_not_mem_fixJSON (x : Str) : '\'' ∉ fixJSON x := by
  rw [fixJSON_eq]
  intro h
  have := mem_of_mem_trim h
  rw [List.mem_map] at this
  obtain ⟨c, _, hc⟩ := this
  exact unquote_ne_quote c hc

theorem trim_fixJSON (x : Str) : trim (fixJSON x) = fixJSON x := by
  rw [fixJSON_eq, trim_trim]

theorem map_unquote_eq_self {s : Str} (h : '\'' ∉ s) : s.map unquote = s := by
  induction s with
  | nil => rfl
  | cons a s ih =>
    have ha : a ≠ '\'' := fun e => h (e ▸ List.mem_cons_self _ _)
    rw [List.map_cons, unquote_eq_self ha, ih (fun hm => h (List.mem_cons_of_mem _ hm))]

theorem fixJSON_eq_self_of {v : Str} (h1 : trim v = v) (h2 : '\'' ∉ v)
    (h3 : hasBareKey v = false) (h4 : hasTrailingComma v = false) : fixJSON v = v := by
  rw [fixJSON_eq, replaceAll_of_not_anyMatch v h3, replaceAll_of_not_anyMatch v h4,
    map_unquote_eq_self h2, h1]

theorem length_replaceAll_commaRule_le :
    ∀ t : Str, (replaceAll commaRule t).length ≤ t.length
  | [] => Nat.le_refl _
  | c :: r => by
    have ih := length_replaceAll_commaRule_le r
    cases hk : commaRule (c :: r) with
    | some pr =>
      rw [replaceAll_commaRule_cons_some hk, List.length_cons]; omega
    | none =>
      rw [replaceAll_cons_none hk, List.length_cons, List.length_cons]; omega

theorem length_replaceAll_commaRule_lt :
    ∀ t : Str, hasTrailingComma t = true → (replaceAll commaRule t).length < t.length
  | [], h => by cases h
  | c :: r, h => by
    have hle := length_replaceAll_commaRule_le r
    cases hk : commaRule (c :: r) with
    | some pr =>
      rw [replaceAll_commaRule_cons_some hk, List.length_cons]; omega
    | none =>
      unfold hasTrailingComma at h
      rw [anyMatch_cons, hk] at h
      have ih := length_replaceAll_commaRule_lt r h
      rw [replaceAll_cons_none hk, List.length_cons, List.length_cons]; omega

theorem fixJSON_ne_self_of_trailingComma {y : Str} (h3 : hasBareKey y = false)
    (h4 : hasTrailingComma y = true) : fixJSON y ≠ y := by
  intro he
  have hlen : (fixJSON y).length < y.length := by
    rw [fixJSON_eq, replaceAll_of_not_anyMatch y h3]
    calc (trim ((replaceAll commaRule y).map unquote)).length
        ≤ ((replaceAll commaRule y).map unquote).length := length_trim_le _
      _ = (replaceAll commaRule y).length := List.length_map _ _
      _ < y.length := length_replaceAll_commaRule_lt y h4
  rw [he] at hlen
  exact Nat.lt_irrefl _ hlen

/-! ## Runs of commas -/

theorem commaRunRule_isSome (c : Char) (r : Str) :
    (commaRunRule (c :: r)).isSome = (c == ',' && firstNonSpace r == some ',') := by
  unfold commaRunRule firstNonSpace
  by_cases hc : c = ','
  · subst hc
    simp only
    generalize r.dropWhile isSpace = T
    cases T with
    | nil => rfl
    | cons d t =>
      by_cases hd : d = ','
      · subst hd; rfl
      · simp only [List.head?_cons, beq_self_eq_true, Bool.true_and]
        split
        · next heq => simp only [List.cons.injEq] at heq; exact absurd heq.1 hd
        · simp [hd]
  · have : (c == ',') = false := by simpa using hc
    rw [this, Bool.false_and]
    split
    · next heq => simp only [List.cons.injEq] at heq; exact absurd heq.1 hc
    · rfl

theorem commaRunRule_none_of_ne {c : Char} (h : c ≠ ',') (t : Str) :
    commaRunRule (c :: t) = none := by
  have := commaRunRule_isSome c t
  have hc : (c == ',') = false := by simpa using h
  rw [hc, Bool.false_and] at this
  cases hk : commaRunRule (c :: t) with
  | none => rfl
  | some p => rw [hk] at this; cases this

theorem firstNonSpace_eq_head? {z : Str} (hz : ∀ d, z.head? = some d → isSpace d = false) :
    firstNonSpace z = z.head? := by
  cases z with
  | nil => rfl
  | cons d t => rw [firstNonSpace_cons_nonspace _ (hz d rfl)]; rfl

theorem head?_dropWhile_isSpace (r : Str) :
    ∀ d, (r.dropWhile isSpace).head? = some d → isSpace d = false := by
  intro d hd
  have := List.head?_dropWhile_not isSpace r
  rw [hd] at this
  simpa using this

theorem commaRule_none_of_spaces {w : Str} (hw : ∀ c ∈ w, isSpace c = true) :
    ∀ c ∈ w, ∀ t, commaRule (c :: t) = none :=
  fun c hc t => commaRule_none_of_ne (ne_comma_of_isSpace (hw c hc)) t

theorem keyRule_none_of_spaces {w : Str} (hw : ∀ c ∈ w, isSpace c = true) :
    ∀ c ∈ w, ∀ t, keyRule (c :: t) = none :=
  fun c hc t => keyRule_none_of_not_opener (isOpener_of_isSpace (hw c hc)) t

theorem firstNonSpace_replaceAll_keyRule (r : Str) :
    firstNonSpace (replaceAll keyRule r) = firstNonSpace r := by
  have hw : ∀ c ∈ r.takeWhile isSpace, isSpace c = true := fun c hc => List.mem_takeWhile_imp hc
  have hz := head?_dropWhile_isSpace r
  conv_lhs => rw [← List.takeWhile_append_dropWhile isSpace r]
  rw [replaceAll_append_left _ _ (keyRule_none_of_spaces hw), firstNonSpace_of_spaces_append hw,
    firstNonSpace_eq_head?, head?_replaceAll_keyRule]
  · rfl
  · rw [head?_replaceAll_keyRule]; exact hz

/-- Step 1 creates no run of commas. -/
theorem hasCommaRun_replaceAll_keyRule (x : Str) (h : hasCommaRun x = false) :
    hasCommaRun (replaceAll keyRule x) = false := by
  unfold hasCommaRun at h ⊢
  generalize hn : x.length = n
  induction n using Nat.strong_induction_on generalizing x with
  | _ n ih =>
    cases x with
    | nil => rfl
    | cons c r =>
      rw [anyMatch_cons, Bool.or_eq_false_iff] at h
      cases hk : keyRule (c :: r) with
      | none =>
        rw [replaceAll_cons_none hk, anyMatch_cons, commaRunRule_isSome,
          firstNonSpace_replaceAll_keyRule, ← commaRunRule_isSome, h.1, Bool.false_or]
        simp only [List.length_cons] at hn
        exact ih r.length (by omega) r h.2 rfl
      | some pr =>
        obtain ⟨rep, rest⟩ := pr
        obtain ⟨ho, hrep, hrest⟩ := keyRule_some hk
        have hlen := consuming_keyRule _ _ _ hk
        have hsuf : rest <:+ r := by
          have h1 : (':' :: rest) <:+ r := by
            rw [← hrest]
            exact ((List.dropWhile_suffix isSpace).trans (List.dropWhile_suffix isWordCh)).trans
              (List.dropWhile_suffix isSpace)
          exact (List.suffix_cons _ _).trans h1
        rw [replaceAll_cons_some consuming_keyRule hk, hrep, List.cons_append, anyMatch_cons,
          commaRunRule_isSome]
        have h1 : firstNonSpace (r.takeWhile isSpace ++
            '"' :: ((r.dropWhile isSpace).takeWhile isWordCh ++ ['"', ':']) ++
            replaceAll keyRule rest) = some '"' := by
          rw [List.append_assoc, firstNonSpace_of_spaces_append
            (fun c hc => List.mem_takeWhile_imp hc)]
          rfl
        rw [h1, anyMatch_append_left]
        · have := ih rest.length (by rw [← hn]; exact hlen) rest
            (anyMatch_of_suffix r rest hsuf h.2) rfl
          rw [this]; simp
        · intro a ha t
          apply commaRunRule_none_of_ne
          simp only [List.mem_append, List.mem_cons, List.mem_singleton, List.not_mem_nil,
            or_false] at ha
          rcases ha with ha | rfl | ha | rfl | rfl
          · exact ne_comma_of_isSpace (List.mem_takeWhile_imp ha)
          · decide
          · have := List.mem_takeWhile_imp ha
            rintro rfl; revert this; decide
          · decide
          · decide

theorem firstNonSpace_replaceAll_commaRule (r : Str) :
    firstNonSpace (replaceAll commaRule r) = firstNonSpace r ∨ firstNonSpace r = some ',' := by
  have hw : ∀ c ∈ r.takeWhile isSpace, isSpace c = true := fun c hc => List.mem_takeWhile_imp hc
  have hz := head?_dropWhile_isSpace r
  have hdec := List.takeWhile_append_dropWhile isSpace r
  generalize r.takeWhile isSpace = w at hw hdec
  generalize r.dropWhile isSpace = z at hz hdec
  subst hdec
  rw [replaceAll_append_left _ _ (commaRule_none_of_spaces hw), firstNonSpace_of_spaces_append hw,
    firstNonSpace_of_spaces_append hw]
  cases z with
  | nil => exact Or.inl rfl
  | cons e t =>
    have he := hz e rfl
    cases hk : commaRule (e :: t) with
    | none =>
      left
      rw [replaceAll_cons_none hk, firstNonSpace_cons_nonspace _ he,
        firstNonSpace_cons_nonspace _ he]
    | some pr =>
      right
      obtain ⟨hc, _⟩ := commaRule_some hk
      subst hc
      exact firstNonSpace_cons_nonspace _ he

/-- Step 2 leaves a trailing comma only where a comma was followed by another. -/
theorem hasTrailingComma_replaceAll_commaRule :
    ∀ t : Str, hasCommaRun t = false → hasTrailingComma (replaceAll commaRule t) = false
  | [], _ => rfl
  | c :: r, h => by
    unfold hasCommaRun at h
    rw [anyMatch_cons, Bool.or_eq_false_iff] at h
    have ih := hasTrailingComma_replaceAll_commaRule r h.2
    cases hk : commaRule (c :: r) with
    | some pr => rw [replaceAll_commaRule_cons_some hk]; exact ih
    | none =>
      unfold hasTrailingComma at ih ⊢
      rw [replaceAll_cons_none hk, anyMatch_cons, ih, Bool.or_false, commaRule_isSome]
      have h1 := h.1
      rw [commaRunRule_isSome] at h1
      have h2 : (commaRule (c :: r)).isSome = false := by rw [hk]; rfl
      rw [commaRule_isSome] at h2
      by_cases hc : c = ','
      · subst hc
        simp only [beq_self_eq_true, Bool.true_and] at h1 h2 ⊢
        rcases firstNonSpace_replaceAll_commaRule r with he | he
        · rw [he]; exact h2
        · rw [he] at h1; simp at h1
      · simp [hc]

/-- Without a run of commas in the input, `fixJSON` leaves no trailing comma. -/
theorem hasTrailingComma_fixJSON_of_noCommaRun (x : Str) (h : hasCommaRun x = false) :
    hasTrailingComma (fixJSON x) = false := by
  rw [fixJSON_eq]
  apply anyMatch_trim commaRule_isSome_append
  show hasTrailingComma _ = false
  rw [hasTrailingComma_map_unquote]
  exact hasTrailingComma_replaceAll_commaRule _ (hasCommaRun_replaceAll_keyRule x h)

/-! ## The candidate-span searches -/

theorem splitAtFirst_single_append {d : Char} (rest : Str) :
    ∀ body : Str, d ∉ body → splitAtFirst [d] (body ++ d :: rest) = some (body, rest)
  | [], _ => by
    simp [splitAtFirst, List.isPrefixOf]
  | a :: body, h => by
    have ha : a ≠ d := fun e => h (e ▸ List.mem_cons_self _ _)
    have hb : d ∉ body := fun hm => h (List.mem_cons_of_mem _ hm)
    have hpre : List.isPrefixOf [d] (a :: (body ++ d :: rest)) = false := by
      simp [List.isPrefixOf, Ne.symm ha]
    rw [List.cons_append, splitAtFirst, hpre, splitAtFirst_single_append rest body hb]
    rfl

theorem splitAtFirst_length {pat : Str} :
    ∀ (s a b : Str), splitAtFirst pat s = some (a, b) → a.length + pat.length + b.length = s.length
  | [], a, b, h => by
    unfold splitAtFirst at h
    split at h
    · next hp =>
      simp only [Option.some.injEq, Prod.mk.injEq] at h
      rw [← h.1, ← h.2, hp]; rfl
    · cases h
  | c :: r, a, b, h => by
    unfold splitAtFirst at h
    split at h
    · next hp =>
      simp only [Option.some.injEq, Prod.mk.injEq] at h
      obtain ⟨t, ht⟩ := List.isPrefixOf_iff_prefix.mp hp
      rw [← h.1, ← h.2, ← ht]
      simp
    · cases hs : splitAtFirst pat r with
      | none => simp [hs] at h
      | some pr =>
        obtain ⟨a', b'⟩ := pr
        simp only [hs, Option.map_some', Option.some.injEq, Prod.mk.injEq] at h
        have := splitAtFirst_length r a' b' hs
        rw [← h.1, ← h.2]
        simp only [List.length_cons]
        omega

theorem braceRule_some {s hit rest : Str} (h : braceRule s = some (hit, rest)) :
    ∃ r body, s = '{' :: r ∧ splitAtFirst ['}'] r = some (body, rest) ∧
      hit = '{' :: body ++ ['}'] := by
  unfold braceRule at h
  split at h
  · next r =>
    cases hs : splitAtFirst ['}'] r with
    | none => simp [hs] at h
    | some pr =>
      obtain ⟨body, rest'⟩ := pr
      simp only [hs, Option.some.injEq, Prod.mk.injEq] at h
      exact ⟨r, body, rfl, by rw [← h.2]; exact hs, h.1.symm⟩
  · cases h

theorem consuming_braceRule : Consuming braceRule := by
  intro s hit rest h
  obtain ⟨r, body, hs, hsplit, _⟩ := braceRule_some h
  have := splitAtFirst_length r body rest hsplit
  subst hs
  simp only [List.length_cons, List.length_nil] at this ⊢
  omega

theorem streamRule_some {s hit rest : Str} (h : streamRule s = some (hit, rest)) :
    ∃ r, s = '{' :: r ∧ r.dropWhile notBrace = '}' :: rest ∧
      hit = '{' :: r.takeWhile notBrace ++ ['}'] := by
  unfold streamRule at h
  split at h
  · next r =>
    simp only at h
    split at h
    · cases h
    · split at h
      · next rest' hd =>
        simp only [Option.some.injEq, Prod.mk.injEq] at h
        exact ⟨r, rfl, by rw [hd, h.2], h.1.symm⟩
      · cases h
  · cases h

theorem consuming_streamRule : Consuming streamRule := by
  intro s hit rest h
  obtain ⟨r, hs, hd, _⟩ := streamRule_some h
  have := length_dropWhile_le' notBrace r
  rw [hd] at this
  subst hs
  simp only [List.length_cons] at this ⊢
  omega

/-- A span of `autoExtract` runs from an opening brace to the first closing
brace after it. -/
theorem scanSpans_brace (body rest : Str) (h : '}' ∉ body) :
    scanSpans ('{' :: body ++ '}' :: rest) = ('{' :: body ++ ['}']) :: scanSpans rest := by
  have hm : braceRule ('{' :: (body ++ '}' :: rest)) = some ('{' :: body ++ ['}'], rest) := by
    simp only [braceRule, splitAtFirst_single_append rest body h]
  exact matchAll_cons_some consuming_braceRule hm

/-- A span of `streamParse` is an opening brace, a non-empty run without braces
and a closing brace. -/
theorem streamSpans_brace (body rest : Str) (hne : body ≠ [])
    (h : ∀ c ∈ body, notBrace c = true) :
    streamSpans ('{' :: body ++ '}' :: rest) = ('{' :: body ++ ['}']) :: streamSpans rest := by
  have ht : (body ++ '}' :: rest).takeWhile notBrace = body := by
    rw [List.takeWhile_append_of_pos h]
    simp [notBrace]
  have hd : (body ++ '}' :: rest).dropWhile notBrace = '}' :: rest := by
    rw [List.dropWhile_append_of_pos h]
    simp [notBrace]
  have hm : streamRule ('{' :: (body ++ '}' :: rest)) = some ('{' :: body ++ ['}'], rest) := by
    simp only [streamRule, ht, hd]
    cases body with
    | nil => exact absurd rfl hne
    | cons a l => rfl
  exact matchAll_cons_some consuming_streamRule hm

/-! ## `JSON.parse` on a text that starts with a brace -/

theorem parseMembers_obj :
    ∀ (n : Nat) (s : Str) (acc : List (List Nat × JVal)) (v : JVal) (rest : Str),
      parseMembers n s acc = some (v, rest) → ∃ kvs, v = JVal.obj kvs := by
  intro n
  induction n with
  | zero =>
    intro s acc v rest h
    simp [parseMembers] at h
  | succ n ih =>
    intro s acc v rest h
    rw [parseMembers] at h
    split at h
    · split at h
      · cases h
      · split at h
        · split at h
          · cases h
          · split at h
            · exact ih _ _ _ _ h
            · simp only [Option.some.injEq, Prod.mk.injEq] at h
              exact ⟨_, h.1.symm⟩
            · cases h
        · cases h
    · cases h

theorem parseValue_obj_of_brace (n : Nat) (t : Str) (v : JVal) (rest : Str)
    (h : parseValue n ('{' :: t) = some (v, rest)) : ∃ kvs, v = JVal.obj kvs := by
  cases n with
  | zero => simp [parseValue] at h
  | succ n =>
    rw [parseValue] at h
    have hs : skipWs ('{' :: t) = '{' :: t := by
      simp [skipWs, isJsonWs]
    rw [hs] at h
    simp only [beq_self_eq_true, if_true] at h
    split at h
    · simp only [Option.some.injEq, Prod.mk.injEq] at h
      exact ⟨_, h.1.symm⟩
    · exact parseMembers_obj _ _ _ _ _ h

theorem parse_truthy_of_brace {s : Str} {v : JVal} (hs : s.head? = some '{')
    (h : parse s = some v) : truthy v = true := by
  cases s with
  | nil => cases hs
  | cons c t =>
    simp only [List.head?_cons, Option.some.injEq] at hs
    subst hs
    unfold parse at h
    split at h
    · next v' r hv =>
      obtain ⟨kvs, hk⟩ := parseValue_obj_of_brace _ _ _ _ hv
      split at h
      · simp only [Option.some.injEq] at h
        rw [← h, hk]; rfl
      · cases h
    · cases h

/-! ## The candidates of `autoExtract` -/

theorem mem_matchAllAux {m : Matcher Str} {hit : Str} :
    ∀ (n : Nat) (s : Str), hit ∈ matchAllAux m n s → ∃ t rest, m t = some (hit, rest) := by
  intro n
  induction n with
  | zero => intro s h; simp [matchAllAux] at h
  | succ n ih =>
    intro s h
    cases s with
    | nil => simp [matchAllAux] at h
    | cons c r =>
      cases hm : m (c :: r) with
      | none =>
        simp only [matchAllAux, hm] at h
        exact ih r h
      | some pr =>
        obtain ⟨hit', rest⟩ := pr
        simp only [matchAllAux, hm, List.mem_cons] at h
        rcases h with h | h
        · subst h; exact ⟨_, _, hm⟩
        · exact ih rest h

theorem scanSpans_shape {content m : Str} (h : m ∈ scanSpans content) :
    ∃ body, m = '{' :: (body ++ ['}']) := by
  obtain ⟨t, rest, hm⟩ := mem_matchAllAux _ _ h
  obtain ⟨_, body, _, _, hhit⟩ := braceRule_some hm
  exact ⟨body, hhit⟩

theorem stripHead_brace (l : Str) : stripHead ('{' :: l) = '{' :: l := by
  simp [stripHead]

theorem tailRule_brace (body : Str) : tailRule ('{' :: (body ++ ['}'])) = none := by
  simp [tailRule]

theorem lineCommentRule_brace (l : Str) : lineCommentRule ('{' :: l) = none := rfl

theorem blockCommentRule_brace (l : Str) : blockCommentRule ('{' :: l) = none := rfl

theorem stripComments_brace (body : Str) :
    ∃ l, stripComments ('{' :: (body ++ ['}'])) = '{' :: l := by
  unfold stripComments
  have h1 : replaceFirst tailRule ('{' :: (body ++ ['}'])) =
      '{' :: replaceFirst tailRule (body ++ ['}']) := by
    rw [replaceFirst, tailRule_brace body]
  rw [stripHead_brace, h1, replaceAll_cons_none (lineCommentRule_brace _),
    replaceAll_cons_none (blockCommentRule_brace _)]
  exact ⟨_, rfl⟩

theorem fixJSON_brace (l : Str) : (fixJSON ('{' :: l)).head? = some '{' := by
  rw [fixJSON_eq]
  have h1 := head?_replaceAll_keyRule ('{' :: l)
  cases hk : replaceAll keyRule ('{' :: l) with
  | nil => rw [hk] at h1; cases h1
  | cons c r =>
    rw [hk] at h1
    simp only [List.head?_cons, Option.some.injEq] at h1
    subst h1
    have hc : commaRule ('{' :: r) = none := commaRule_none_of_ne (by decide) r
    rw [replaceAll_cons_none hc, List.map_cons]
    exact head?_trim_of_nonspace _ (by decide)

theorem truthy_parse_candidate {content m : Str} (hm : m ∈ scanSpans content) (fix : Bool)
    {v : JVal}
    (h : parse (if fix then fixJSON (stripComments m) else stripComments m) = some v) :
    truthy v = true := by
  obtain ⟨body, hb⟩ := scanSpans_shape hm
  obtain ⟨l, hl⟩ := stripComments_brace body
  subst hb
  rw [hl] at h
  apply parse_truthy_of_brace _ h
  cases fix with
  | true => exact fixJSON_brace l
  | false => rfl

theorem extractOne_eq (f : JVal → List Nat) (o : Options) (m : Str) :
    extractOne f o m =
      match parse (if o.tryFix then fixJSON (stripComments m) else stripComments m) with
      | some obj => if o.returnString then JVal.str (f obj) else obj
      | none => JVal.null := rfl

theorem filter_extractOne (f : JVal → List Nat) (fix : Bool) :
    ∀ ms : List Str,
      (∀ m ∈ ms, ∀ v, parse (if fix then fixJSON (stripComments m) else stripComments m) = some v →
        truthy v = true) →
      (ms.map (extractOne f ⟨fix, true, false⟩)).filter truthy =
        ms.filterMap
          (fun m => parse (if fix then fixJSON (stripComments m) else stripComments m))
  | [], _ => rfl
  | m :: ms, h => by
    have ih := filter_extractOne f fix ms (fun m' hm' => h m' (List.mem_cons_of_mem _ hm'))
    rw [List.map_cons, List.filterMap_cons, extractOne_eq]
    cases hp : parse (if fix then fixJSON (stripComments m) else stripComments m) with
    | none =>
      simp only [hp]
      rw [List.filter_cons_of_neg (by simp [truthy]), ih]
    | some v =>
      have hv := h m (List.mem_cons_self _ _) v hp
      simp only [hp, Bool.false_eq_true, if_false]
      rw [List.filter_cons_of_pos hv, ih]

/-! ## The remaining expressions consume input -/

theorem consuming_newlineRule : Consuming newlineRule := by
  intro s rep rest h
  unfold newlineRule at h
  split at h
  · simp only [Option.some.injEq, Prod.mk.injEq] at h
    rw [← h.2]; simp only [List.length_cons]; omega
  · cases h

theorem consuming_fenceRule : Consuming fenceRule := by
  intro s rep rest h
  unfold fenceRule at h
  split at h
  · next r =>
    have := splitAtFirst_length r rep rest h
    simp only [List.length_cons]; omega
  · cases h

theorem consuming_fenceJsonRule : Consuming fenceJsonRule := by
  intro s rep rest h
  unfold fenceJsonRule at h
  split at h
  · next j s1 o n r =>
    split at h
    · have := splitAtFirst_length r rep rest h
      simp only [List.length_cons]; omega
    · cases h
  · cases h

theorem consuming_lineCommentRule : Consuming lineCommentRule := by
  intro s rep rest h
  unfold lineCommentRule at h
  split at h
  · next r =>
    simp only [Option.some.injEq, Prod.mk.injEq] at h
    have := length_dropWhile_le' (fun c => !isLineTerm c) r
    rw [h.2] at this
    simp only [List.length_cons]; omega
  · cases h

theorem consuming_blockCommentRule : Consuming blockCommentRule := by
  intro s rep rest h
  unfold blockCommentRule at h
  split at h
  · next r =>
    cases hs : splitAtFirst ['*', '/'] r with
    | none => simp [hs] at h
    | some pr =>
      obtain ⟨a, b⟩ := pr
      simp only [hs, Option.some.injEq, Prod.mk.injEq] at h
      have := splitAtFirst_length r a b hs
      rw [← h.2]
      simp only [List.length_cons, List.length_nil] at this ⊢
      omega
  · cases h

/-! ## The recursion bound of `parse` is never reached -/

theorem length_skipWs_le (s : Str) : (skipWs s).length ≤ s.length :=
  length_dropWhile_le' isJsonWs s

theorem parseStringBody_length :
    ∀ (n : Nat) (s : Str) (us : List Nat) (r : Str),
      s.length ≤ n → parseStringBody s = some (us, r) → r.length < s.length := by
  intro n
  induction n with
  | zero =>
    intro s us r hn h
    cases s with
    | nil => simp [parseStringBody] at h
    | cons c t => simp at hn
  | succ n ih =>
    intro s us r hn h
    cases s with
    | nil => simp [parseStringBody] at h
    | cons c t =>
      simp only [List.length_cons] at hn ⊢
      rw [parseStringBody.eq_def] at h
      simp only at h
      split at h
      · simp only [Option.some.injEq, Prod.mk.injEq] at h
        rw [← h.2]; omega
      · split at h
        · split at h
          · cases h
          · next e r1 =>
            simp only [List.length_cons] at hn ⊢
            split at h
            · split at h
              · next x y z w r2 =>
                simp only [List.length_cons] at hn ⊢
                split at h
                · next a b c' d us' rest' _ _ _ _ hrec =>
                  simp only [Option.some.injEq, Prod.mk.injEq] at h
                  have := ih r2 us' rest' (by omega) hrec
                  rw [← h.2]; omega
                · cases h
              · cases h
            · split at h
              · next u us' rest' _ hrec =>
                simp only [Option.some.injEq, Prod.mk.injEq] at h
                have := ih r1 us' rest' (by omega) hrec
                rw [← h.2]; omega
              · cases h
        · split at h
          · cases h
          · split at h
            · next us' rest' hrec =>
              simp only [Option.some.injEq, Prod.mk.injEq] at h
              have := ih t us' rest' (by omega) hrec
              rw [← h.2]; omega
            · cases h

theorem parseFrac_length {s fracs r : Str} (h : parseFrac s = some (fracs, r)) :
    r.length ≤ s.length := by
  unfold parseFrac at h
  split at h
  · simp only [Option.some.injEq, Prod.mk.injEq] at h
    rw [← h.2]
  · next c t =>
    split at h
    · split at h
      · cases h
      · simp only [Option.some.injEq, Prod.mk.injEq] at h
        have := length_dropWhile_le' isDigit t
        rw [← h.2]; simp only [List.length_cons]; omega
    · simp only [Option.some.injEq, Prod.mk.injEq] at h
      rw [← h.2]

theorem parseExpDigits_length {neg : Bool} {s r : Str} {e : Int}
    (h : parseExpDigits neg s = some (e, r)) : r.length ≤ s.length := by
  unfold parseExpDigits at h
  split at h
  · cases h
  · simp only [Option.some.injEq, Prod.mk.injEq] at h
    rw [← h.2]; exact length_dropWhile_le' isDigit s

theorem parseExp_length {s r : Str} {e : Int} (h : parseExp s = some (e, r)) :
    r.length ≤ s.length := by
  unfold parseExp at h
  split at h
  · simp only [Option.some.injEq, Prod.mk.injEq] at h
    rw [← h.2]
  · next c t =>
    split at h
    · split at h
      · cases h
      · next d t' =>
        simp only [List.length_cons]
        split at h
        · have := parseExpDigits_length h; omega
        · split at h
          · have := parseExpDigits_length h; omega
          · have := parseExpDigits_length h
            simp only [List.length_cons] at this; omega
    · simp only [Option.some.injEq, Prod.mk.injEq] at h
      rw [← h.2]

theorem parseUnsigned_length {s r : Str} {q : Rat} (h : parseUnsigned s = some (q, r)) :
    r.length < s.length := by
  unfold parseUnsigned at h
  split at h
  · cases h
  · next d t =>
    split at h
    · cases h
    · split at h
      · cases h
      · next fracs s3 hf =>
        split at h
        · cases h
        · next e s4 he =>
          simp only [Option.some.injEq, Prod.mk.injEq] at h
          have h1 := parseFrac_length hf
          have h2 := parseExp_length he
          have h3 : (if d == '0' then t else t.dropWhile isDigit).length ≤ t.length := by
            split
            · exact Nat.le_refl _
            · exact length_dropWhile_le' isDigit t
          rw [← h.2]; simp only [List.length_cons]; omega

theorem parseNumber_length {s r : Str} {q : Rat} (h : parseNumber s = some (q, r)) :
    r.length < s.length := by
  unfold parseNumber at h
  split at h
  · cases h
  · next c t =>
    split at h
    · split at h
      · next q' r' hu =>
        simp only [Option.some.injEq, Prod.mk.injEq] at h
        have := parseUnsigned_length hu
        rw [← h.2]; simp only [List.length_cons]; omega
      · cases h
    · exact parseUnsigned_length h

theorem stripLit_length {lit s r : Str} (h : stripLit lit s = some r) :
    r.length + lit.length = s.length := by
  unfold stripLit at h
  split at h
  · next hp =>
    simp only [Option.some.injEq] at h
    obtain ⟨t, ht⟩ := List.isPrefixOf_iff_prefix.mp hp
    rw [← h, ← ht]; simp; omega
  · cases h

theorem length_of_skipWs_eq_cons {s r : Str} {c : Char} (h : skipWs s = c :: r) :
    r.length < s.length := by
  have := length_skipWs_le s
  rw [h] at this
  simp only [List.length_cons] at this; omega

/-- Every parser of the mutual block consumes at least one character. -/
theorem parse_consumes (n : Nat) :
    (∀ s v r, parseValue n s = some (v, r) → r.length < s.length) ∧
    (∀ s acc v r, parseElements n s acc = some (v, r) → r.length < s.length) ∧
    (∀ s acc v r, parseMembers n s acc = some (v, r) → r.length < s.length) := by
  induction n with
  | zero =>
    refine ⟨?_, ?_, ?_⟩
    · intro s v r h; simp [parseValue] at h
    · intro s acc v r h; simp [parseElements] at h
    · intro s acc v r h; simp [parseMembers] at h
  | succ n ih =>
    obtain ⟨ihV, ihE, ihM⟩ := ih
    refine ⟨?_, ?_, ?_⟩
    · intro s v r h
      rw [parseValue] at h
      split at h
      · cases h
      · next c r0 hsk =>
        have h0 := length_of_skipWs_eq_cons hsk
        split at h
        · split at h
          · next r1 hr1 =>
            simp only [Option.some.injEq, Prod.mk.injEq] at h
            have := length_of_skipWs_eq_cons hr1
            rw [← h.2]; omega
          · have := ihM _ _ _ _ h; omega
        · split at h
          · split at h
            · next r1 hr1 =>
              simp only [Option.some.injEq, Prod.mk.injEq] at h
              have := length_of_skipWs_eq_cons hr1
              rw [← h.2]; omega
            · have := ihE _ _ _ _ h; omega
          · split at h
            · split at h
              · next us r1 hs =>
                simp only [Option.some.injEq, Prod.mk.injEq] at h
                have := parseStringBody_length _ _ _ _ (Nat.le_refl _) hs
                rw [← h.2]; omega
              · cases h
            · split at h
              · next r1 hl =>
                simp only [Option.some.injEq, Prod.mk.injEq] at h
                have := stripLit_length hl
                simp only [List.length_cons, List.length_nil] at this
                rw [← h.2]; omega
              · split at h
                · next r1 hl =>
                  simp only [Option.some.injEq, Prod.mk.injEq] at h
                  have := stripLit_length hl
                  simp only [List.length_cons, List.length_nil] at this
                  rw [← h.2]; omega
                · split at h
                  · next r1 hl =>
                    simp only [Option.some.injEq, Prod.mk.injEq] at h
                    have := stripLit_length hl
                    simp only [List.length_cons, List.length_nil] at this
                    rw [← h.2]; omega
                  · split at h
                    · next q r1 hq =>
                      simp only [Option.some.injEq, Prod.mk.injEq] at h
                      have := parseNumber_length hq
                      simp only [List.length_cons] at this
                      rw [← h.2]; omega
                    · cases h
    · intro s acc v r h
      rw [parseElements] at h
      split at h
      · cases h
      · next v1 r1 hv =>
        have h1 := ihV _ _ _ hv
        split at h
        · next r2 hr2 =>
          have h2 := length_of_skipWs_eq_cons hr2
          have := ihE _ _ _ _ h; omega
        · next r2 hr2 =>
          simp only [Option.some.injEq, Prod.mk.injEq] at h
          have h2 := length_of_skipWs_eq_cons hr2
          rw [← h.2]; omega
        · cases h
    · intro s acc v r h
      rw [parseMembers] at h
      split at h
      · next r0 hsk =>
        have h0 := length_of_skipWs_eq_cons hsk
        split at h
        · cases h
        · next k r1 hs =>
          have h1 := parseStringBody_length _ _ _ _ (Nat.le_refl _) hs
          split at h
          · next r2 hr2 =>
            have h2 := length_of_skipWs_eq_cons hr2
            split at h
            · cases h
            · next v1 r3 hv =>
              have h3 := ihV _ _ _ hv
              split at h
              · next r4 hr4 =>
                have h4 := length_of_skipWs_eq_cons hr4
                have := ihM _ _ _ _ h; omega
              · next r4 hr4 =>
                simp only [Option.some.injEq, Prod.mk.injEq] at h
                have h4 := length_of_skipWs_eq_cons hr4
                rw [← h.2]; omega
              · cases h
          · cases h
      · cases h

theorem parse_fuel_step (n : Nat) :
    (∀ s, 2 * s.length + 1 ≤ n → parseValue (n + 1) s = parseValue n s) ∧
    (∀ s acc, 2 * s.length + 2 ≤ n → parseElements (n + 1) s acc = parseElements n s acc) ∧
    (∀ s acc, 2 * s.length + 2 ≤ n → parseMembers (n + 1) s acc = parseMembers n s acc) := by
  induction n with
  | zero =>
    refine ⟨?_, ?_, ?_⟩
    · intro s h; omega
    · intro s acc h; omega
    · intro s acc h; omega
  | succ n ih =>
    obtain ⟨ihV, ihE, ihM⟩ := ih
    refine ⟨?_, ?_, ?_⟩
    · intro s hs
      rw [parseValue, parseValue]
      cases hsk : skipWs s with
      | nil => rfl
      | cons c r0 =>
        have h0 := length_of_skipWs_eq_cons hsk
        simp only [ihE r0 [] (by omega), ihM r0 [] (by omega)]
    · intro s acc hs
      rw [parseElements, parseElements, ihV s (by omega)]
      cases hv : parseValue n s with
      | none => rfl
      | some p =>
        obtain ⟨v, r⟩ := p
        have h1 := (parse_consumes n).1 _ _ _ hv
        simp only
        split
        · next r1 hr1 =>
          have h2 := length_of_skipWs_eq_cons hr1
          exact ihE r1 _ (by omega)
        · rfl
        · rfl
    · intro s acc hs
      rw [parseMembers, parseMembers]
      split
      · next r0 hsk =>
        have h0 := length_of_skipWs_eq_cons hsk
        split
        · rfl
        · next k r1 hk =>
          have h1 := parseStringBody_length _ _ _ _ (Nat.le_refl _) hk
          split
          · next r2 hr2 =>
            have h2 := length_of_skipWs_eq_cons hr2
            rw [ihV r2 (by omega)]
            cases hv : parseValue n r2 with
            | none => rfl
            | some p =>
              obtain ⟨v, r3⟩ := p
              have h3 := (parse_consumes n).1 _ _ _ hv
              simp only
              split
              · next r4 hr4 =>
                have h4 := length_of_skipWs_eq_cons hr4
                exact ihM r4 _ (by omega)
              · rfl
              · rfl
          · rfl
      · rfl

/-- The result of the value parser does not depend on the bound once the bound
exceeds twice the length of the text: the bound used by `parse` is never
reached. -/
theorem parseValue_fuel (s : Str) :
    ∀ n, 2 * s.length + 2 ≤ n → parseValue n s = parseValue (2 * s.length + 2) s := by
  intro n hn
  induction n with
  | zero => omega
  | succ n ih =>
    rcases Nat.eq_or_lt_of_le hn with heq | hlt
    · rw [← heq]
    · rw [(parse_fuel_step n).1 s (by omega)]
      exact ih (by omega)

/-! ## `streamParse`: the buffer -/

theorem length_sliceLast_le (n : Nat) (s : Str) (h : 1 ≤ n) : (sliceLast n s).length ≤ n := by
  unfold sliceLast
  have hn : n ≠ 0 := by omega
  simp only [hn, if_false, List.length_drop]
  omega

theorem streamStep_buffer (chunkSize : Nat) (st : StreamState) (chunk : Str) :
    (streamStep chunkSize st chunk).buffer =
      if (st.buffer ++ chunk).length > chunkSize * 5 then sliceLast chunkSize (st.buffer ++ chunk)
      else st.buffer ++ chunk := rfl

theorem streamStep_delivered (chunkSize : Nat) (st : StreamState) (chunk : Str) :
    (streamStep chunkSize st chunk).delivered =
      st.delivered ++ (streamSpans (st.buffer ++ chunk)).filterMap parse := rfl

theorem streamStep_buffer_le (chunkSize : Nat) (h : 1 ≤ chunkSize) (st : StreamState)
    (chunk : Str) : (streamStep chunkSize st chunk).buffer.length ≤ 5 * chunkSize := by
  rw [streamStep_buffer]
  split
  · have := length_sliceLast_le chunkSize (st.buffer ++ chunk) h
    omega
  · omega

theorem foldl_streamStep_buffer_le (chunkSize : Nat) (h : 1 ≤ chunkSize) :
    ∀ (chunks : List Str) (st : StreamState), st.buffer.length ≤ 5 * chunkSize →
      (chunks.foldl (streamStep chunkSize) st).buffer.length ≤ 5 * chunkSize
  | [], _, hst => hst
  | c :: cs, st, _ =>
    foldl_streamStep_buffer_le chunkSize h cs _ (streamStep_buffer_le chunkSize h st c)

theorem stringLoop_buffer_le (chunkSize : Nat) (h : 1 ≤ chunkSize) (input : Str) :
    ∀ (fuel i : Nat) (st r : StreamState), st.buffer.length ≤ 5 * chunkSize →
      stringLoop chunkSize input fuel i st = some r → r.buffer.length ≤ 5 * chunkSize := by
  intro fuel
  induction fuel with
  | zero => intro i st r _ hr; simp [stringLoop] at hr
  | succ fuel ih =>
    intro i st r hst hr
    rw [stringLoop] at hr
    split at hr
    · exact ih _ _ _ (streamStep_buffer_le chunkSize h st _) hr
    · simp only [Option.some.injEq] at hr
      rw [← hr]; exact hst

/-! ## `streamParse`: the order of the spans -/

theorem spansOf_cons_text (c : Char) {ms : List Str} {t : Str} (h : SpansOf ms t) :
    SpansOf ms (c :: t) := by
  cases h with
  | nil => exact SpansOf.nil _
  | cons pre m rest ms' h' =>
    have := SpansOf.cons (c :: pre) m rest ms' h'
    simpa using this

theorem spansOf_matchAll {m : Matcher Str} (hm : Consuming m)
    (hhit : ∀ s hit rest, m s = some (hit, rest) → s = hit ++ rest) (s : Str) :
    SpansOf (matchAll m s) s := by
  generalize hn : s.length = n
  induction n using Nat.strong_induction_on generalizing s with
  | _ n ih =>
    cases s with
    | nil => exact SpansOf.nil _
    | cons c r =>
      cases hk : m (c :: r) with
      | none =>
        rw [matchAll_cons_none hk]
        simp only [List.length_cons] at hn
        exact spansOf_cons_text c (ih r.length (by omega) r rfl)
      | some pr =>
        obtain ⟨hit, rest⟩ := pr
        rw [matchAll_cons_some hm hk]
        have hlen := hm _ _ _ hk
        have hs := hhit _ _ _ hk
        have h1 := SpansOf.cons [] hit rest _ (ih rest.length (by rw [← hn]; exact hlen) rest rfl)
        rw [hs]
        simpa using h1

theorem streamRule_hit_append {s hit rest : Str} (h : streamRule s = some (hit, rest)) :
    s = hit ++ rest := by
  obtain ⟨r, hs, hd, hh⟩ := streamRule_some h
  rw [hs, hh]
  simp only [List.cons_append, List.append_assoc, List.singleton_append, List.cons.injEq,
    true_and, List.nil_append]
  rw [← hd, List.takeWhile_append_dropWhile]

/-- The spans of `streamParse` occur in the buffer in the order of the list,
without overlap. -/
theorem spansOf_streamSpans (buffer : Str) : SpansOf (streamSpans buffer) buffer :=
  spansOf_matchAll consuming_streamRule (fun _ _ _ h => streamRule_hit_append h) buffer

/-! ## `streamParse`: every flat span of a short input is delivered -/

theorem dropWhile_notBrace_before_brace (X rest : Str) :
    ∀ l1 : Str, (l1 ++ '{' :: X).dropWhile notBrace = '}' :: rest →
      ∃ l2, rest = l2 ++ '{' :: X ∧ l2.length < l1.length
  | [], h => by
    have hb : ¬ notBrace '{' = true := by decide
    rw [List.nil_append, List.dropWhile_cons_of_neg hb] at h
    simp only [List.cons.injEq] at h
    exact absurd h.1 (by decide)
  | a :: l, h => by
    by_cases ha : notBrace a = true
    · rw [List.cons_append, List.dropWhile_cons_of_pos ha] at h
      obtain ⟨l2, h2, hl⟩ := dropWhile_notBrace_before_brace X rest l h
      exact ⟨l2, h2, by simp only [List.length_cons]; omega⟩
    · rw [List.cons_append, List.dropWhile_cons_of_neg ha] at h
      simp only [List.cons.injEq] at h
      exact ⟨l, h.2.symm, by simp⟩

/-- Every occurrence of `{`, a non-empty run without braces, `}` in a text is
one of the spans of `streamParse`. -/
theorem mem_streamSpans (body post : Str) (hne : body ≠ [])
    (hb : ∀ c ∈ body, notBrace c = true) (pre : Str) :
    ('{' :: (body ++ ['}'])) ∈ streamSpans (pre ++ '{' :: (body ++ '}' :: post)) := by
  generalize hn : pre.length = n
  induction n using Nat.strong_induction_on generalizing pre with
  | _ n ih =>
    cases pre with
    | nil =>
      have := streamSpans_brace body post hne hb
      rw [List.nil_append]
      simp only [List.cons_append] at this
      rw [this]
      exact List.mem_cons_self _ _
    | cons c pre1 =>
      simp only [List.length_cons] at hn
      unfold streamSpans at ih ⊢
      rw [List.cons_append]
      cases hk : streamRule (c :: (pre1 ++ '{' :: (body ++ '}' :: post))) with
      | none =>
        rw [matchAll_cons_none hk]
        exact ih pre1.length (by omega) pre1 rfl
      | some pr =>
        obtain ⟨hit, rest⟩ := pr
        obtain ⟨r, hs, hd, _⟩ := streamRule_some hk
        simp only [List.cons.injEq] at hs
        rw [← hs.2] at hd
        obtain ⟨l2, h2, hl⟩ := dropWhile_notBrace_before_brace _ _ _ hd
        rw [matchAll_cons_some consuming_streamRule hk, h2]
        exact List.mem_cons_of_mem _ (ih l2.length (by omega) l2 rfl)

theorem stringLoop_terminates (chunkSize : Nat) (h : 1 ≤ chunkSize) (input : Str) :
    ∀ (fuel i : Nat) (st : StreamState), input.length - i < fuel →
      ∃ r, stringLoop chunkSize input fuel i st = some r := by
  intro fuel
  induction fuel with
  | zero => intro i st hf; omega
  | succ fuel ih =>
    intro i st hf
    rw [stringLoop]
    split
    · exact ih _ _ (by omega)
    · exact ⟨st, rfl⟩

theorem stringLoop_short (chunkSize : Nat) (h : 1 ≤ chunkSize) (input : Str)
    (hlen : input.length ≤ 5 * chunkSize) :
    ∀ (fuel i : Nat) (st : StreamState), st.buffer = input.take i → i < input.length →
      input.length - i < fuel →
      ∃ r D, stringLoop chunkSize input fuel i st = some r ∧ r.buffer = input ∧
        r.delivered = D ++ (streamSpans input).filterMap parse := by
  intro fuel
  induction fuel with
  | zero => intro i st _ _ hf; omega
  | succ fuel ih =>
    intro i st hst hi hf
    rw [stringLoop]
    simp only [hi, if_true]
    have hbuf : st.buffer ++ (input.drop i).take chunkSize = input.take (i + chunkSize) := by
      rw [hst, List.take_add]
    have hle : (input.take (i + chunkSize)).length ≤ chunkSize * 5 := by
      have := (List.take_sublist (i + chunkSize) input).length_le
      omega
    have hb' : (streamStep chunkSize st ((input.drop i).take chunkSize)).buffer =
        input.take (i + chunkSize) := by
      rw [streamStep_buffer, hbuf]
      have : ¬ (input.take (i + chunkSize)).length > chunkSize * 5 := by omega
      simp only [this, if_false]
    by_cases hnext : i + chunkSize < input.length
    · exact ih _ _ hb' hnext (by omega)
    · cases fuel with
      | zero => omega
      | succ f =>
        rw [stringLoop]
        simp only [hnext, if_false]
        refine ⟨_, st.delivered, rfl, ?_, ?_⟩
        · rw [hb', List.take_of_length_le (by omega)]
        · rw [streamStep_delivered, hbuf, List.take_of_length_le (by omega)]

/-- On text of the basic plane every character is one UTF-16 code unit. -/
theorem utf16_length_of_basic : ∀ s : Str, (∀ c ∈ s, c.toNat < 0x10000) →
    (utf16 s).length = s.length
  | [], _ => rfl
  | c :: r, h => by
    have hc : utf16Char c = [c.toNat] := by
      unfold utf16Char
      simp only
      rw [if_pos (h c (List.mem_cons_self _ _))]
    have hr := utf16_length_of_basic r (fun d hd => h d (List.mem_cons_of_mem _ hd))
    unfold utf16 at hr ⊢
    rw [List.flatMap_cons, hc, List.length_append, hr]
    simp [Nat.add_comm]

/-! ## `autofix`: the prose around the object -/

theorem headProse_append (P rest : Str) (hP : '{' ∉ P) :
    headProse (P ++ '{' :: rest) = '{' :: rest := by
  have hall : ∀ c ∈ P, (fun c => c != '{') c = true := by
    intro c hc
    have : c ≠ '{' := fun e => hP (e ▸ hc)
    simpa using this
  have hd : (P ++ '{' :: rest).dropWhile (fun c => c != '{') = '{' :: rest := by
    rw [List.dropWhile_append_of_pos hall]
    simp
  unfold headProse
  rw [hd]
  rfl

theorem tailProseRule_none_of_mem (a : Char) (l : Str) (h : '}' ∈ l) :
    tailProseRule (a :: l) = none := by
  unfold tailProseRule
  have : l.all (fun d => d != '}') = false := by
    rw [List.all_eq_false]
    exact ⟨'}', h, by simp⟩
  simp [this]

theorem replaceFirst_tailProseRule (S : Str) (hS : '}' ∉ S) :
    ∀ l : Str, replaceFirst tailProseRule (l ++ '}' :: S) = l ++ ['}']
  | [] => by
    have hall : S.all (fun d => d != '}') = true := by
      rw [List.all_eq_true]
      intro c hc
      have : c ≠ '}' := fun e => hS (e ▸ hc)
      simpa using this
    have : tailProseRule ('}' :: S) = some (['}'], []) := by
      simp [tailProseRule, hall]
    rw [List.nil_append, replaceFirst, this]
    rfl
  | a :: l => by
    have hn : tailProseRule (a :: (l ++ '}' :: S)) = none :=
      tailProseRule_none_of_mem a _ (List.mem_append_right _ (List.mem_cons_self _ _))
    rw [List.cons_append, replaceFirst, hn]
    simp only
    rw [replaceFirst_tailProseRule S hS l]
    rfl

/-- The prose-removal step keeps exactly the text from the first `{` to the
last `}`. -/
theorem stripProse_wrapped (P mid S : Str) (hP : '{' ∉ P) (hS : '}' ∉ S) :
    stripProse (P ++ '{' :: (mid ++ '}' :: S)) = '{' :: (mid ++ ['}']) := by
  unfold stripProse
  rw [headProse_append P _ hP]
  exact replaceFirst_tailProseRule S hS ('{' :: mid)
theorem autofix_eq (rawText : Str) : autofix rawText =
    (parse (fixJSON (translateLiterals
      (stripProse (replaceAll fenceRule (replaceAll fenceJsonRule rawText)))))).getD
      JVal.null := by
  simp only [autofix]
  split
  · next v h => rw [h]; rfl
  · next h => rw [h]; rfl

/-! ## `detectBroken` -/

theorem includes_iff (flag : Str) : ∀ text : Str, includes flag text = true ↔ flag <:+: text
  | [] => by
    rw [includes, List.infix_nil, List.isEmpty_iff]
  | c :: r => by
    rw [includes, Bool.or_eq_true, List.isPrefixOf_iff_prefix, includes_iff flag r,
      List.infix_cons_iff]

theorem detectBroken_iff (text : Str) :
    detectBroken text = true ↔
      ("```".toList <:+: text ∨ "json".toList <:+: text ∨ "undefined".toList <:+: text ∨
        "None".toList <:+: text ∨ "NaN".toList <:+: text) := by
  unfold detectBroken redFlags
  simp only [List.any_cons, List.any_nil, Bool.or_false, Bool.or_eq_true, includes_iff]

/-! ## `autoExtract` on a text that needs no repair -/

theorem replaceFirst_of_not_anyMatch {m : Matcher Str} :
    ∀ s : Str, anyMatch m s = false → replaceFirst m s = s
  | [], _ => rfl
  | c :: r, h => by
    rw [anyMatch_cons, Bool.or_eq_false_iff] at h
    have hn : m (c :: r) = none := by
      cases hmc : m (c :: r) with
      | none => rfl
      | some p => rw [hmc] at h; exact absurd h.1 (by simp)
    rw [replaceFirst, hn]
    simp only
    rw [replaceFirst_of_not_anyMatch r h.2]

theorem anyMatch_tailRule_closed : ∀ l : Str, anyMatch tailRule (l ++ ['}']) = false
  | [] => by
    simp [anyMatch, tailRule]
  | a :: l => by
    rw [List.cons_append, anyMatch_cons, anyMatch_tailRule_closed l, Bool.or_false]
    simp [tailRule]

theorem trim_braced (body : Str) : trim ('{' :: (body ++ ['}'])) = '{' :: (body ++ ['}']) := by
  have h1 : ¬ isSpace '{' = true := by decide
  have h2 : ¬ isSpace '}' = true := by decide
  rw [trim_eq, List.dropWhile_cons_of_neg h1, ← List.cons_append,
    List.rdropWhile_concat_neg _ _ _ h2]

theorem splitAtFirst_isSome_cons (pat : Str) (a : Char) (r : Str)
    (h : (splitAtFirst pat r).isSome = true) : (splitAtFirst pat (a :: r)).isSome = true := by
  rw [splitAtFirst]
  split
  · rfl
  · rw [Option.isSome_map']; exact h

theorem fenceRule_of_fenceJsonRule (s : Str) (h : (fenceJsonRule s).isSome = true) :
    (fenceRule s).isSome = true := by
  unfold fenceJsonRule at h
  split at h
  · next j s1 o n r =>
    split at h
    · show (splitAtFirst fence (j :: s1 :: o :: n :: r)).isSome = true
      exact splitAtFirst_isSome_cons _ _ _ (splitAtFirst_isSome_cons _ _ _
        (splitAtFirst_isSome_cons _ _ _ (splitAtFirst_isSome_cons _ _ _ h)))
    · cases h
  · cases h

theorem anyMatch_fenceJsonRule_of_fenceRule :
    ∀ s : Str, anyMatch fenceRule s = false → anyMatch fenceJsonRule s = false
  | [], _ => rfl
  | c :: r, h => by
    rw [anyMatch_cons, Bool.or_eq_false_iff] at h
    rw [anyMatch_cons, anyMatch_fenceJsonRule_of_fenceRule r h.2, Bool.or_false]
    cases hj : (fenceJsonRule (c :: r)).isSome with
    | false => rfl
    | true =>
      have := fenceRule_of_fenceJsonRule _ hj
      rw [h.1] at this; cases this

theorem cleanContent_eq_self (body : Str) (hf : anyMatch fenceRule ('{' :: (body ++ ['}'])) = false)
    (hn : anyMatch newlineRule ('{' :: (body ++ ['}'])) = false) :
    cleanContent ('{' :: (body ++ ['}'])) = '{' :: (body ++ ['}']) := by
  unfold cleanContent
  rw [replaceAll_of_not_anyMatch _ (anyMatch_fenceJsonRule_of_fenceRule _ hf),
    replaceAll_of_not_anyMatch _ hf, replaceAll_of_not_anyMatch _ hn, trim_braced]

theorem stripComments_eq_self (body : Str)
    (hl : anyMatch lineCommentRule ('{' :: (body ++ ['}'])) = false)
    (hb : anyMatch blockCommentRule ('{' :: (body ++ ['}'])) = false) :
    stripComments ('{' :: (body ++ ['}'])) = '{' :: (body ++ ['}']) := by
  unfold stripComments
  have ht : anyMatch tailRule ('{' :: (body ++ ['}'])) = false := by
    rw [← List.cons_append]; exact anyMatch_tailRule_closed _
  rw [stripHead_brace, replaceFirst_of_not_anyMatch _ ht, replaceAll_of_not_anyMatch _ hl,
    replaceAll_of_not_anyMatch _ hb]

theorem autoExtract_of_clean (f : JVal → List Nat) (body : Str) (d : JVal)
    (hbody : '}' ∉ body)
    (hf : anyMatch fenceRule ('{' :: (body ++ ['}'])) = false)
    (hn : anyMatch newlineRule ('{' :: (body ++ ['}'])) = false)
    (hl : anyMatch lineCommentRule ('{' :: (body ++ ['}'])) = false)
    (hb : anyMatch blockCommentRule ('{' :: (body ++ ['}'])) = false)
    (hq : '\'' ∉ '{' :: (body ++ ['}']))
    (hk : hasBareKey ('{' :: (body ++ ['}'])) = false)
    (hc : hasTrailingComma ('{' :: (body ++ ['}'])) = false)
    (hp : parse ('{' :: (body ++ ['}'])) = some d) :
    autoExtract f ('{' :: (body ++ ['}'])) { } = d := by
  have hspans : scanSpans ('{' :: (body ++ ['}'])) = ['{' :: (body ++ ['}'])] := by
    have := scanSpans_brace body [] hbody
    simpa using this
  have hfix : fixJSON ('{' :: (body ++ ['}'])) = '{' :: (body ++ ['}']) :=
    fixJSON_eq_self_of (trim_braced body) hq hk hc
  have hone : extractOne f { } ('{' :: (body ++ ['}'])) = d := by
    rw [extractOne_eq]
    simp only [if_true, stripComments_eq_self body hl hb, hfix, hp, Bool.false_eq_true,
      if_false]
  have htr : truthy d = true :=
    @parse_truthy_of_brace ('{' :: (body ++ ['}'])) d rfl hp
  unfold autoExtract
  simp only [cleanContent_eq_self body hf hn, hspans, List.isEmpty_cons, Bool.false_eq_true,
    if_false, List.map_cons, List.map_nil, hone, List.filter_cons_of_pos htr, List.filter_nil,
    Bool.not_false, if_true, htr]

/-! ## `compare` -/

theorem compareStep_eq (a b : Obj) (d : Diff) (k : Key) :
    compareStep a b d k =
      ⟨if isAdded a k then d.added ++ [k] else d.added,
       if isRemoved a b k then d.removed ++ [k] else d.removed,
       if isChanged a b k then d.changed ++ [k] else d.changed,
       if isUnchanged a b k then d.unchanged ++ [k] else d.unchanged⟩ := by
  simp only [compareStep, isAdded, isRemoved, isChanged, isUnchanged]
  by_cases h1 : hasProperty a k = true <;> by_cases h2 : hasProperty b k = true <;>
    by_cases h3 : (stringifyJs (getProp a k) != stringifyJs (getProp b k)) = true <;>
    simp [h1, h2, h3]

theorem foldl_compareStep (a b : Obj) :
    ∀ (ks : List Key) (d : Diff),
      ks.foldl (compareStep a b) d =
        ⟨d.added ++ ks.filter (isAdded a), d.removed ++ ks.filter (isRemoved a b),
         d.changed ++ ks.filter (isChanged a b), d.unchanged ++ ks.filter (isUnchanged a b)⟩
  | [], d => by simp
  | k :: ks, d => by
    rw [List.foldl_cons, foldl_compareStep a b ks, compareStep_eq]
    by_cases h1 : isAdded a k = true <;> by_cases h2 : isRemoved a b k = true <;>
      by_cases h3 : isChanged a b k = true <;> by_cases h4 : isUnchanged a b k = true <;>
      simp [List.filter_cons, h1, h2, h3, h4]

/-- The four lists of `compare` are the keys of `allKeys` that take the
corresponding branch of the loop, in the order of `allKeys`. -/
theorem compare_eq (a b : Obj) :
    compare a b =
      ⟨(allKeys a b).filter (isAdded a), (allKeys a b).filter (isRemoved a b),
       (allKeys a b).filter (isChanged a b), (allKeys a b).filter (isUnchanged a b)⟩ := by
  unfold compare
  rw [foldl_compareStep]
  simp

theorem mem_setAdd (acc : List Key) (k key : Key) :
    key ∈ setAdd acc k ↔ key ∈ acc ∨ key = k := by
  unfold setAdd
  split
  · next h =>
    have hk : k ∈ acc := by simpa using h
    constructor
    · exact Or.inl
    · rintro (h1 | h1)
      · exact h1
      · rw [h1]; exact hk
  · simp

theorem mem_foldl_setAdd (key : Key) :
    ∀ (ks acc : List Key), key ∈ ks.foldl setAdd acc ↔ key ∈ acc ∨ key ∈ ks
  | [], acc => by simp
  | k :: ks, acc => by
    rw [List.foldl_cons, mem_foldl_setAdd key ks, mem_setAdd, List.mem_cons]
    tauto

theorem mem_allKeys (a b : Obj) (key : Key) :
    key ∈ allKeys a b ↔ key ∈ objectKeys a ∨ key ∈ objectKeys b := by
  unfold allKeys
  rw [mem_foldl_setAdd, List.mem_append]
  simp

theorem mem_objectKeys_of_lookup {key : Key} {v : JVal} :
    ∀ o : Obj, o.lookup key = some v → key ∈ objectKeys o
  | [], h => by simp [List.lookup] at h
  | p :: o, h => by
    obtain ⟨k, w⟩ := p
    by_cases hk : key = k
    · subst hk; simp [objectKeys]
    · have hk' : (key == k) = false := by simpa using hk
      rw [List.lookup_cons, hk'] at h
      have := mem_objectKeys_of_lookup o h
      simp only [objectKeys, List.map_cons, List.mem_cons]
      exact Or.inr this

theorem hasProperty_of_lookup {o : Obj} {key : Key} {v : JVal} (h : o.lookup key = some v) :
    hasProperty o key = true := by
  unfold hasProperty
  have := mem_objectKeys_of_lookup o h
  simp [this]

theorem getProp_of_lookup {o : Obj} {key : Key} {v : JVal} (h : o.lookup key = some v) :
    getProp o key = JsVal.doc v := by
  unfold getProp
  rw [h]

theorem schemaStep_eq (data : Obj) (errors : List (List Nat)) (p : Key × List Nat) :
    schemaStep data errors p = errors ++ schemaStep data [] p := by
  unfold schemaStep
  split
  · simp
  · simp only
    split <;> simp

theorem extraStep_eq (schema : List (Key × List Nat)) (errors : List (List Nat)) (key : Key) :
    extraStep schema errors key = errors ++ extraStep schema [] key := by
  unfold extraStep
  split <;> simp

theorem foldl_schemaStep_eq_nil (data : Obj) : ∀ (schema : List (Key × List Nat))
    (errors : List (List Nat)),
    schema.foldl (schemaStep data) errors = [] ↔
      errors = [] ∧ ∀ p ∈ schema, schemaStep data [] p = []
  | [], errors => by simp
  | p :: ps, errors => by
    rw [List.foldl_cons, foldl_schemaStep_eq_nil data ps, schemaStep_eq, List.append_eq_nil]
    simp only [List.mem_cons, forall_eq_or_imp, and_assoc]

theorem foldl_extraStep_eq_nil (schema : List (Key × List Nat)) : ∀ (keys : List Key)
    (errors : List (List Nat)),
    keys.foldl (extraStep schema) errors = [] ↔
      errors = [] ∧ ∀ k ∈ keys, extraStep schema [] k = []
  | [], errors => by simp
  | k :: ks, errors => by
    rw [List.foldl_cons, foldl_extraStep_eq_nil schema ks, extraStep_eq, List.append_eq_nil]
    simp only [List.mem_cons, forall_eq_or_imp, and_assoc]

theorem schemaStep_eq_nil (data : Obj) (p : Key × List Nat) :
    schemaStep data [] p = [] ↔
      hasProperty data p.1 = true ∧ p.2 = actualTypeOf (getProp data p.1) := by
  unfold schemaStep
  by_cases h : hasProperty data p.1 = true
  · by_cases h2 : p.2 = actualTypeOf (getProp data p.1)
    · simp [h, ← h2]
    · simp [h, h2]
  · simp [h]

theorem extraStep_eq_nil (schema : List (Key × List Nat)) (key : Key) :
    extraStep schema [] key = [] ↔ hasProperty schema key = true := by
  unfold extraStep
  by_cases h : hasProperty schema key = true <;> simp [h]

/-- What `validateSchema` decides: `valid` is `true` exactly when `errors` is
empty, and `errors` is empty exactly when every key of the schema is `in` the
data with the expected type tag and every key of the data is `in` the schema. -/
theorem validateSchema_valid_iff (schema : List (Key × List Nat)) (data : Obj) :
    ((validateSchema schema data).valid = true ↔ (validateSchema schema data).errors = []) ∧
      ((validateSchema schema data).errors = [] ↔
        (∀ p ∈ schema, hasProperty data p.1 = true ∧ p.2 = actualTypeOf (getProp data p.1)) ∧
          ∀ k ∈ objectKeys data, hasProperty schema k = true) := by
  constructor
  · simp [validateSchema, List.length_eq_zero]
  · simp only [validateSchema, foldl_extraStep_eq_nil, foldl_schemaStep_eq_nil, true_and,
      schemaStep_eq_nil, extraStep_eq_nil]

theorem hasProperty_own {β : Type} (o : List (Key × β)) (key : Key)
    (h : key ∉ objectPrototypeKeys) : hasProperty o key = true ↔ key ∈ objectKeys o := by
  unfold hasProperty
  have : objectPrototypeKeys.contains key = false := by
    rw [← Bool.not_eq_true]; simpa using h
  rw [this, Bool.or_false]
  simp

/-- On a schema and data none of whose keys is the name of a member of
`Object.prototype`, `valid` is `true` exactly when schema and data have the same
keys and every key of the schema has the expected type tag in the data. -/
theorem validateSchema_valid_of_own (schema : List (Key × List Nat)) (data : Obj)
    (hs : ∀ k ∈ objectKeys schema, k ∉ objectPrototypeKeys)
    (hd : ∀ k ∈ objectKeys data, k ∉ objectPrototypeKeys) :
    (validateSchema schema data).valid = true ↔
      (∀ k, k ∈ objectKeys schema ↔ k ∈ objectKeys data) ∧
        ∀ p ∈ schema, p.2 = actualTypeOf (getProp data p.1) := by
  rw [(validateSchema_valid_iff schema data).1, (validateSchema_valid_iff schema data).2]
  have hmem : ∀ p ∈ schema, p.1 ∈ objectKeys schema := by
    intro p hp
    unfold objectKeys
    exact List.mem_map_of_mem _ hp
  constructor
  · rintro ⟨h1, h2⟩
    refine ⟨fun k => ⟨fun hk => ?_, fun hk => ?_⟩, fun p hp => (h1 p hp).2⟩
    · unfold objectKeys at hk
      obtain ⟨p, hp, rfl⟩ := List.mem_map.mp hk
      exact (hasProperty_own data p.1 (hs _ (hmem p hp))).mp (h1 p hp).1
    · exact (hasProperty_own schema k (hd k hk)).mp (h2 k hk)
  · rintro ⟨h1, h2⟩
    refine ⟨fun p hp => ⟨?_, h2 p hp⟩, fun k hk => ?_⟩
    · exact (hasProperty_own data p.1 (hs _ (hmem p hp))).mpr ((h1 _).mp (hmem p hp))
    · exact (hasProperty_own schema k (hd k hk)).mpr ((h1 k).mpr hk)

/-! ## Claims about `fixJSON` and `parseSafe` -/

/-- C1 (counterexample): `fixJSON` is not idempotent on the text `,,}` : the
first pass removes only the comma next to the closing brace and gives `,}`, the
second pass gives `}`. -/
theorem C1_fixJSON_not_idempotent :
    fixJSON (fixJSON ",,\x7d".toList) ≠ fixJSON ",,\x7d".toList := by decide

/-- C1 (amended): for every text `x`, a second pass of `fixJSON` changes nothing
exactly when the first pass left no comma followed, after optional whitespace,
by `}` or `]`. -/
theorem C1_fixJSON_idempotent_iff (x : Str) :
    fixJSON (fixJSON x) = fixJSON x ↔ hasTrailingComma (fixJSON x) = false := by
  constructor
  · intro h
    cases ht : hasTrailingComma (fixJSON x) with
    | false => rfl
    | true => exact absurd h (fixJSON_ne_self_of_trailingComma (hasBareKey_fixJSON x) ht)
  · intro h
    exact fixJSON_eq_self_of (trim_fixJSON x) (quote_not_mem_fixJSON x) (hasBareKey_fixJSON x) h

/-- C2: for every text on which the direct parse succeeds, `parseSafe` returns
the result of that parse, and the only call it makes is the direct
`JSON.parse`: `fixJSON` is not applied. -/
theorem C2_parseSafe_of_valid (v : Str) (h : isValid v = true) :
    ∃ d, parse v = some d ∧ parseSafe v = d ∧ (parseSafeRun v).2 = [Call.jsonParse v] := by
  unfold isValid at h
  cases hp : parse v with
  | none => rw [hp] at h; cases h
  | some d =>
    refine ⟨d, rfl, ?_, ?_⟩
    · simp [parseSafe, parseSafeRun, hp]
    · simp [parseSafeRun, hp]

/-- C2 (witness): the valid text `{"a": [1, "x"]}`. -/
theorem C2_parseSafe_of_valid_witness :
    ∃ d, parse "\x7b\"a\": [1, \"x\"]\x7d".toList = some d ∧
      parseSafe "\x7b\"a\": [1, \"x\"]\x7d".toList = d ∧
      (parseSafeRun "\x7b\"a\": [1, \"x\"]\x7d".toList).2 =
        [Call.jsonParse "\x7b\"a\": [1, \"x\"]\x7d".toList] :=
  C2_parseSafe_of_valid _ (by decide)

/-- C3: `parseSafe` is total; on every text it makes at most two calls to
`JSON.parse`; when the direct parse fails it returns the parse of
`fixJSON(text)` if that succeeds and `null` otherwise. -/
theorem C3_parseSafe_two_attempts (text : Str) :
    ((parseSafeRun text).2.filter isParseCall).length ≤ 2 ∧
      (parse text = none →
        (parseSafeRun text).2 =
            [Call.jsonParse text, Call.fixJSON text, Call.jsonParse (fixJSON text)] ∧
          parseSafe text = (parse (fixJSON text)).getD JVal.null) := by
  constructor
  · cases hp : parse text with
    | some d => simp [parseSafeRun, hp, isParseCall]
    | none =>
      cases hq : parse (fixJSON text) <;> simp [parseSafeRun, hp, hq, isParseCall]
  · intro h
    cases hq : parse (fixJSON text) <;> simp [parseSafe, parseSafeRun, h, hq]

/-- C3 (witness): `[1,]` does not parse, its repair `[1]` does; `[1,,]` does not
parse and neither does its repair `[1,]`, so the result is `null`. -/
theorem C3_parseSafe_two_attempts_witness :
    (parse "[1,]".toList = none ∧ parseSafe "[1,]".toList = JVal.arr [JVal.num 1]) ∧
      (parse "[1,,]".toList = none ∧ parseSafe "[1,,]".toList = JVal.null) :=
  ⟨⟨rfl, ((C3_parseSafe_two_attempts "[1,]".toList).2 rfl).2⟩,
    ⟨rfl, ((C3_parseSafe_two_attempts "[1,,]".toList).2 rfl).2⟩⟩

/-- C4: on `{name: "Egehan", age: 5,}` the direct parse fails, `fixJSON` gives
`{"name": "Egehan", "age": 5}`, and `parseSafe` returns the object with
`name = "Egehan"` and `age = 5`. -/
theorem C4_parseSafe_repairs_example :
    parse "\x7bname: \"Egehan\", age: 5,\x7d".toList = none ∧
      fixJSON "\x7bname: \"Egehan\", age: 5,\x7d".toList =
        "\x7b\"name\": \"Egehan\", \"age\": 5\x7d".toList ∧
      parseSafe "\x7bname: \"Egehan\", age: 5,\x7d".toList =
        JVal.obj [(utf16 "name".toList, JVal.str (utf16 "Egehan".toList)),
          (utf16 "age".toList, JVal.num 5)] :=
  ⟨rfl, by decide, rfl⟩

/-- C5: `fixJSON` replaces every single quote by a double quote: its result is
the trimmed result of steps 1 and 2 in which each single quote has become a
double quote and every other character is unchanged, so no result of `fixJSON`
contains a single quote; and `{'a': 'b'}` becomes `{"a": "b"}`. -/
theorem C5_fixJSON_no_single_quote :
    (∀ x : Str, fixJSON x =
        trim ((replaceAll commaRule (replaceAll keyRule x)).map
          (fun c => if c == '\'' then '"' else c))) ∧
      (∀ x : Str, '\'' ∉ fixJSON x) ∧
      fixJSON "\x7b'a': 'b'\x7d".toList = "\x7b\"a\": \"b\"\x7d".toList :=
  ⟨fixJSON_eq, quote_not_mem_fixJSON, by decide⟩

/-- C6 (counterexample): four valid JSON texts that `fixJSON` changes: in
`{"a": "it's"}` the apostrophe inside the string value becomes a double quote;
in `["a, b: c"]` the `b` inside the string is quoted as a key; in `["x,]"]` the
comma inside the string is removed; and `{"a": 1}` followed by a space loses
the space. -/
theorem C6_fixJSON_changes_valid_json :
    (isValid "\x7b\"a\": \"it's\"\x7d".toList = true ∧
      fixJSON "\x7b\"a\": \"it's\"\x7d".toList = "\x7b\"a\": \"it\"s\"\x7d".toList ∧
      fixJSON "\x7b\"a\": \"it's\"\x7d".toList ≠ "\x7b\"a\": \"it's\"\x7d".toList) ∧
    (isValid "[\"a, b: c\"]".toList = true ∧
      fixJSON "[\"a, b: c\"]".toList = "[\"a, \"b\": c\"]".toList ∧
      fixJSON "[\"a, b: c\"]".toList ≠ "[\"a, b: c\"]".toList) ∧
    (isValid "[\"x,]\"]".toList = true ∧
      fixJSON "[\"x,]\"]".toList = "[\"x]\"]".toList ∧
      fixJSON "[\"x,]\"]".toList ≠ "[\"x,]\"]".toList) ∧
    (isValid "\x7b\"a\": 1\x7d ".toList = true ∧
      fixJSON "\x7b\"a\": 1\x7d ".toList ≠ "\x7b\"a\": 1\x7d ".toList) := by
  decide

/-- C6 (amended): `fixJSON` is a no-op on every text (valid JSON included) that
`trim` leaves unchanged, that contains no single quote, no bare key (`{` or `,`,
optional whitespace, identifier characters, optional whitespace, colon) and no
trailing comma (comma, optional whitespace, `}` or `]`), wherever in the text,
string values included, these occur. -/
theorem C6_fixJSON_noop (v : Str) (h1 : trim v = v) (h2 : '\'' ∉ v)
    (h3 : hasBareKey v = false) (h4 : hasTrailingComma v = false) : fixJSON v = v :=
  fixJSON_eq_self_of h1 h2 h3 h4

/-- C6 (witness): the valid JSON text `{"a": {"b": [1, 2]}, "c": "x:y"}` is left
unchanged. -/
theorem C6_fixJSON_noop_witness :
    isValid "\x7b\"a\": \x7b\"b\": [1, 2]\x7d, \"c\": \"x:y\"\x7d".toList = true ∧
      fixJSON "\x7b\"a\": \x7b\"b\": [1, 2]\x7d, \"c\": \"x:y\"\x7d".toList =
        "\x7b\"a\": \x7b\"b\": [1, 2]\x7d, \"c\": \"x:y\"\x7d".toList :=
  ⟨by decide, C6_fixJSON_noop _ (by decide) (by decide) (by decide) (by decide)⟩

/-- C7 (counterexample): the result of `fixJSON` on `,,}` is `,}`, which still
has a comma directly before the closing brace. -/
theorem C7_fixJSON_keeps_trailing_comma :
    fixJSON ",,\x7d".toList = ",\x7d".toList ∧
      hasTrailingComma (fixJSON ",,\x7d".toList) = true := by decide

/-- C7 (amended): for every text `x` in which no comma is followed, after
optional whitespace, by another comma, the result of `fixJSON` contains no comma
followed, after optional whitespace, by `}` or `]`. -/
theorem C7_fixJSON_no_trailing_comma (x : Str) (h : hasCommaRun x = false) :
    hasTrailingComma (fixJSON x) = false :=
  hasTrailingComma_fixJSON_of_noCommaRun x h

/-- C7 (witness): `{"a":1, "b":[1,2, ] , }` has trailing commas and no run of
commas; its repair has no trailing comma. -/
theorem C7_fixJSON_no_trailing_comma_witness :
    hasTrailingComma "\x7b\"a\":1, \"b\":[1,2, ] , \x7d".toList = true ∧
      hasTrailingComma (fixJSON "\x7b\"a\":1, \"b\":[1,2, ] , \x7d".toList) = false :=
  ⟨by decide, C7_fixJSON_no_trailing_comma _ (by decide)⟩

/-! ## Claims about the candidate-span searches and `autoExtract` -/

/-- C8 (counterexample): `{"a": {"b": 1}}` is one brace-balanced object; the
search of `autoExtract` yields the single span `{"a": {"b": 1}` (it stops at the
first closing brace) and the search of `streamParse` yields the single span
`{"b": 1}` (the innermost pair); neither is the whole text. -/
theorem C8_nested_object_not_one_span :
    isOneObject "\x7b\"a\": \x7b\"b\": 1\x7d\x7d".toList = true ∧
      scanSpans "\x7b\"a\": \x7b\"b\": 1\x7d\x7d".toList = ["\x7b\"a\": \x7b\"b\": 1\x7d".toList] ∧
      scanSpans "\x7b\"a\": \x7b\"b\": 1\x7d\x7d".toList ≠ ["\x7b\"a\": \x7b\"b\": 1\x7d\x7d".toList] ∧
      streamSpans "\x7b\"a\": \x7b\"b\": 1\x7d\x7d".toList = ["\x7b\"b\": 1\x7d".toList] ∧
      streamSpans "\x7b\"a\": \x7b\"b\": 1\x7d\x7d".toList ≠
        ["\x7b\"a\": \x7b\"b\": 1\x7d\x7d".toList] := by
  decide

/-- C8 (amended): for every text `{` + body + `}` whose body contains no `}`,
the search of `autoExtract` yields exactly one span, the whole text; the search
of `streamParse` does so when moreover the body is not empty and contains
no `{`. -/
theorem C8_flat_object_one_span (body : Str) (h : '}' ∉ body) :
    scanSpans ('{' :: body ++ ['}']) = ['{' :: body ++ ['}']] ∧
      (body ≠ [] → '{' ∉ body → streamSpans ('{' :: body ++ ['}']) = ['{' :: body ++ ['}']]) := by
  constructor
  · exact scanSpans_brace body [] h
  · intro hne ho
    apply streamSpans_brace body [] hne
    intro c hc
    have h1 : c ≠ '{' := fun e => ho (e ▸ hc)
    have h2 : c ≠ '}' := fun e => h (e ▸ hc)
    simp [notBrace, h1, h2]

/-- C8 (witness): the flat object `{"a": [1, 2]}`. -/
theorem C8_flat_object_one_span_witness :
    scanSpans "\x7b\"a\": [1, 2]\x7d".toList = ["\x7b\"a\": [1, 2]\x7d".toList] ∧
      streamSpans "\x7b\"a\": [1, 2]\x7d".toList = ["\x7b\"a\": [1, 2]\x7d".toList] :=
  ⟨(C8_flat_object_one_span "\"a\": [1, 2]".toList (by decide)).1,
    (C8_flat_object_one_span "\"a\": [1, 2]".toList (by decide)).2 (by decide) (by decide)⟩

/-- C9: under `multi: true` (other options at their defaults) the result of
`autoExtract` is the array, in text order, of the parse results of exactly
those candidate spans that parse after comment stripping and `fixJSON`, and
`null` when there is none. On `Result 1: {"a":1} Result 2: {"b":2}` it is
`[{a:1}, {b:2}]`; on `{"a":1} {bad} {"b":2}` the candidate `{bad}` is left out
and the other two are returned. -/
theorem C9_autoExtract_multi (stringify2 : JVal → List Nat) (text : Str) :
    autoExtract stringify2 text { multi := true } =
        (if ((scanSpans (cleanContent text)).filterMap
              (fun m => parse (fixJSON (stripComments m)))).isEmpty then JVal.null
         else JVal.arr ((scanSpans (cleanContent text)).filterMap
              (fun m => parse (fixJSON (stripComments m))))) ∧
      autoExtract stringify2 "Result 1: \x7b\"a\":1\x7d Result 2: \x7b\"b\":2\x7d".toList
          { multi := true } =
        JVal.arr [JVal.obj [(utf16 "a".toList, JVal.num 1)],
          JVal.obj [(utf16 "b".toList, JVal.num 2)]] ∧
      autoExtract stringify2 "\x7b\"a\":1\x7d \x7bbad\x7d \x7b\"b\":2\x7d".toList
          { multi := true } =
        JVal.arr [JVal.obj [(utf16 "a".toList, JVal.num 1)],
          JVal.obj [(utf16 "b".toList, JVal.num 2)]] := by
  refine ⟨?_, rfl, rfl⟩
  have hf := filter_extractOne stringify2 true (scanSpans (cleanContent text))
    (fun m hm v hv => truthy_parse_candidate hm true hv)
  simp only [if_true] at hf
  unfold autoExtract
  simp only [hf, Bool.not_true, Bool.false_eq_true, if_false]
  cases hms : scanSpans (cleanContent text) with
  | nil => rfl
  | cons m ms =>
    simp only [List.isEmpty_cons, Bool.false_eq_true, if_false]
    cases hd : List.filterMap (fun m => parse (fixJSON (stripComments m))) (m :: ms) with
    | nil => rfl
    | cons d ds => rfl

/-- C10: for every text and every setting of the other options, the result of
`autoExtract` under `multi: false` is the first element of the result under
`multi: true` when that is a non-empty array and `null` otherwise, and it is
`null` exactly when the result under `multi: true` is `null`. -/
theorem C10_autoExtract_first (stringify2 : JVal → List Nat) (text : Str) (o : Options) :
    autoExtract stringify2 text { o with multi := false } =
        (match autoExtract stringify2 text { o with multi := true } with
         | JVal.arr (v :: _) => v
         | _ => JVal.null) ∧
      (autoExtract stringify2 text { o with multi := false } = JVal.null ↔
        autoExtract stringify2 text { o with multi := true } = JVal.null) := by
  have hfun : extractOne stringify2 { o with multi := true } =
      extractOne stringify2 { o with multi := false } := rfl
  simp only [autoExtract, hfun]
  have hall : ∀ v ∈ List.filter truthy
      (List.map (extractOne stringify2 { o with multi := false })
        (scanSpans (cleanContent text))), truthy v = true :=
    fun v hv => (List.mem_filter.mp hv).2
  generalize List.filter truthy
    (List.map (extractOne stringify2 { o with multi := false })
      (scanSpans (cleanContent text))) = parsed at hall
  cases (scanSpans (cleanContent text)).isEmpty with
  | true => exact ⟨rfl, Iff.rfl⟩
  | false =>
    cases parsed with
    | nil => exact ⟨rfl, Iff.rfl⟩
    | cons v l =>
      have hv : truthy v = true := hall v (List.mem_cons_self _ _)
      have hne : v ≠ JVal.null := by
        intro e; rw [e] at hv; cases hv
      simp [hv, hne]

/-! ## Claims about `streamParse` -/

/-- C11: for every `chunkSize` of at least 1, the buffer of `streamParse` holds
at most `5 * chunkSize` characters after each chunk has been processed: this
holds after the loop body has run on any chunk from any state, hence after
every chunk of a stream and after every piece of a string input; the string
path ends for every input, returns `true`, and ends in such a state. -/
theorem C11_stream_buffer_bounded (chunkSize : Nat) (h : 1 ≤ chunkSize) :
    (∀ st chunk, (streamStep chunkSize st chunk).buffer.length ≤ 5 * chunkSize) ∧
      (∀ chunks, (streamParseStream chunks chunkSize).2.buffer.length ≤ 5 * chunkSize) ∧
      (∀ input, ∃ st, streamParseString input chunkSize = some (true, st) ∧
        st.buffer.length ≤ 5 * chunkSize) := by
  refine ⟨streamStep_buffer_le chunkSize h, ?_, ?_⟩
  · intro chunks
    exact foldl_streamStep_buffer_le chunkSize h chunks _ (Nat.zero_le _)
  · intro input
    obtain ⟨st, hl⟩ :=
      stringLoop_terminates chunkSize h input (input.length + 1) 0 ⟨[], []⟩ (by omega)
    refine ⟨st, ?_, stringLoop_buffer_le chunkSize h input _ _ _ _ (Nat.zero_le _) hl⟩
    unfold streamParseString
    rw [hl]
    rfl

/-- C11 (witness): with `chunkSize` 1 a stream whose single chunk has 9
characters, and a string input of 21 characters, leave a buffer of 1
character. -/
theorem C11_stream_buffer_bounded_witness :
    (streamParseStream ["abcdefghi".toList] 1).2.buffer = "i".toList ∧
      (streamParseStream ["abcdefghi".toList] 1).2.buffer.length ≤ 5 * 1 ∧
      ((streamParseString "abcdefghijklmnopqrstu".toList 1).map (fun r => r.2.buffer)) =
        some "u".toList :=
  ⟨by decide, (C11_stream_buffer_bounded 1 (by decide)).2.1 _, by decide⟩

/-- C12 (counterexample): on the string `{"a":1}{"b":2}{"c":3}` with `chunkSize`
14 (and on the stream of its two pieces) `onChunk` receives `{a:1}`, `{b:2}`,
`{a:1}`, `{b:2}`, `{c:3}`: the buffer still holds the first two documents when
the second chunk arrives, so `{a:1}`, whose closing brace is at index 6, is
delivered again after `{b:2}`, whose closing brace is at index 13. -/
theorem C12_stream_redelivers_out_of_order :
    (streamParseString "\x7b\"a\":1\x7d\x7b\"b\":2\x7d\x7b\"c\":3\x7d".toList 14).map
        (fun r => r.2.delivered) =
      some [JVal.obj [(utf16 "a".toList, JVal.num 1)], JVal.obj [(utf16 "b".toList, JVal.num 2)],
        JVal.obj [(utf16 "a".toList, JVal.num 1)], JVal.obj [(utf16 "b".toList, JVal.num 2)],
        JVal.obj [(utf16 "c".toList, JVal.num 3)]] ∧
    (streamParseStream ["\x7b\"a\":1\x7d\x7b\"b\":2\x7d".toList, "\x7b\"c\":3\x7d".toList]
        14).2.delivered =
      [JVal.obj [(utf16 "a".toList, JVal.num 1)], JVal.obj [(utf16 "b".toList, JVal.num 2)],
        JVal.obj [(utf16 "a".toList, JVal.num 1)], JVal.obj [(utf16 "b".toList, JVal.num 2)],
        JVal.obj [(utf16 "c".toList, JVal.num 3)]] ∧
    JVal.obj [(utf16 "a".toList, JVal.num 1)] ≠ JVal.obj [(utf16 "b".toList, JVal.num 2)] := by
  refine ⟨rfl, rfl, ?_⟩
  intro h
  injection h with h
  injection h with h _
  injection h with h _
  revert h
  decide

/-- C12 (amended): while one chunk is processed, `onChunk` receives the parse
results of the spans of the buffer that parse, in the order in which these
spans (and so their closing braces) occur in the buffer; they are appended to
what was delivered before. Across chunks the order of the closing braces is not
kept, because a document that is still in the buffer is delivered again. -/
theorem C12_stream_order_within_chunk (chunkSize : Nat) (st : StreamState) (chunk : Str) :
    (streamStep chunkSize st chunk).delivered =
        st.delivered ++ (streamSpans (st.buffer ++ chunk)).filterMap parse ∧
      SpansOf (streamSpans (st.buffer ++ chunk)) (st.buffer ++ chunk) :=
  ⟨rfl, spansOf_streamSpans _⟩

/-! ## Claims about `autofix` and `detectBroken` -/

/-- C13: for every text `P + J + S` in which `P` contains no `{`, `S` contains
no `}`, and `J` starts with `{` and ends with `}`, the prose-removal step of
`autofix` leaves exactly `J`; and on the text `Here is the data:` followed by a
`json` code fence that holds `{"a":1}`, followed by `Thanks!`, `autofix` returns
the object `{a: 1}`. -/
theorem C13_autofix_strips_prose_and_fences :
    (∀ P mid S : Str, '{' ∉ P → '}' ∉ S →
        stripProse (P ++ '{' :: (mid ++ '}' :: S)) = '{' :: (mid ++ ['}'])) ∧
      autofix "Here is the data: ```json\n\x7b\"a\":1\x7d\n``` Thanks!".toList =
        JVal.obj [(utf16 "a".toList, JVal.num 1)] :=
  ⟨stripProse_wrapped, by rfl⟩

/-- C13 (witness): the prose-removal step on `Sure: {"a": [1, 2]}. Bye`. -/
theorem C13_autofix_strips_prose_and_fences_witness :
    stripProse "Sure: \x7b\"a\": [1, 2]\x7d. Bye".toList = "\x7b\"a\": [1, 2]\x7d".toList :=
  C13_autofix_strips_prose_and_fences.1 "Sure: ".toList "\"a\": [1, 2]".toList ". Bye".toList
    (by decide) (by decide)

/-- C14: `autofix` turns the whole words `None`, `True`, `False` into `null`,
`true`, `false` after the prose removal and before `fixJSON` and the parse; on
`{"a": None, "b": True}` this step gives `{"a": null, "b": true}` and `autofix`
returns the object `{a: null, b: true}`. A longer word such as `Nonesuch` is
left as it is. -/
theorem C14_autofix_translates_literals :
    (∀ rawText : Str, autofix rawText =
        (parse (fixJSON (translateLiterals
          (stripProse (replaceAll fenceRule (replaceAll fenceJsonRule rawText)))))).getD
          JVal.null) ∧
      translateLiterals "\x7b\"a\": None, \"b\": True\x7d".toList =
        "\x7b\"a\": null, \"b\": true\x7d".toList ∧
      autofix "\x7b\"a\": None, \"b\": True\x7d".toList =
        JVal.obj [(utf16 "a".toList, JVal.null), (utf16 "b".toList, JVal.bool true)] ∧
      translateLiterals "[None, True, False, Nonesuch, xTrue, False_]".toList =
        "[null, true, false, Nonesuch, xTrue, False_]".toList := by
  exact ⟨autofix_eq, by decide!, by rfl, by decide!⟩

/-- C15 (counterexample): `detectBroken` returns `true` on the text `json`, which
contains no code fence (so no `json` right after a fence either), no
`undefined`, no `None` and no `NaN`. -/
theorem C15_detectBroken_json_without_fence :
    detectBroken "json".toList = true ∧
      ¬ ("```".toList <:+: "json".toList) ∧ ¬ ("```json".toList <:+: "json".toList) ∧
      ¬ ("undefined".toList <:+: "json".toList) ∧ ¬ ("None".toList <:+: "json".toList) ∧
      ¬ ("NaN".toList <:+: "json".toList) := by
  refine ⟨by decide, ?_, ?_, ?_, ?_, ?_⟩ <;>
    (rw [← includes_iff]; decide)

/-- C15 (amended): `detectBroken` returns `true` if and only if the text
contains at least one of the five texts of `redFlags`: three backticks, `json`
(anywhere, with or without a fence before it), `undefined`, `None`, `NaN`. -/
theorem C15_detectBroken_iff (text : Str) :
    detectBroken text = true ↔
      ("```".toList <:+: text ∨ "json".toList <:+: text ∨ "undefined".toList <:+: text ∨
        "None".toList <:+: text ∨ "NaN".toList <:+: text) :=
  detectBroken_iff text

/-- C16: for every string input `s` of the basic plane (every character is one
UTF-16 code unit, so that the positions of the model are those of the source)
and every `chunkSize` of at least 1 with `s.length ≤ 5 * chunkSize`, the length
being counted in code units, the string path of `streamParse` ends and returns
`true`, and every part of `s` that consists of `{`, one or more characters that
are no braces, and `}`, and that parses, has its document among those passed
to `onChunk`, wherever the chunk boundaries fall. -/
theorem C16_stream_delivers_flat_documents (s : Str) (chunkSize : Nat) (hc : 1 ≤ chunkSize)
    (hbmp : ∀ c ∈ s, c.toNat < 0x10000) (hlen : (utf16 s).length ≤ 5 * chunkSize) :
    ∃ st, streamParseString s chunkSize = some (true, st) ∧
      ∀ pre body post d, s = pre ++ '{' :: (body ++ '}' :: post) → body ≠ [] →
        (∀ c ∈ body, notBrace c = true) → parse ('{' :: (body ++ ['}'])) = some d →
        d ∈ st.delivered := by
  rw [utf16_length_of_basic s hbmp] at hlen
  unfold streamParseString
  cases hs : s with
  | nil =>
    refine ⟨⟨[], []⟩, rfl, ?_⟩
    intro pre body post d h
    simp at h
  | cons a t =>
    rw [← hs]
    have hpos : 0 < s.length := by rw [hs]; simp
    obtain ⟨r, D, hr, _, hd⟩ :=
      stringLoop_short chunkSize hc s hlen (s.length + 1) 0 ⟨[], []⟩ rfl hpos (by omega)
    refine ⟨r, by rw [hr]; rfl, ?_⟩
    intro pre body post d hsub hne hb hp
    rw [hd, hsub]
    apply List.mem_append_right
    rw [List.mem_filterMap]
    exact ⟨_, mem_streamSpans body post hne hb pre, hp⟩

/-- C16 (witness): `{"a":"é"}` read in pieces of 3 characters, so that the
document lies across three chunk boundaries, is delivered. -/
theorem C16_stream_delivers_flat_documents_witness :
    ∃ st, streamParseString "\x7b\"a\":\"é\"\x7d".toList 3 = some (true, st) ∧
      JVal.obj [(utf16 "a".toList, JVal.str (utf16 "é".toList))] ∈ st.delivered := by
  obtain ⟨st, hst, h⟩ :=
    C16_stream_delivers_flat_documents "\x7b\"a\":\"é\"\x7d".toList 3 (by decide) (by decide)
      (by decide)
  exact ⟨st, hst, h [] "\"a\":\"é\"".toList [] _ rfl (by decide) (by decide) rfl⟩

/-! ## Claims about `autoExtract` on valid JSON -/

/-- C17 (counterexample): four valid JSON objects without nested objects on
which `autoExtract` with default options returns `null` and not the parsed
document: in `{"u": "http://x"}` the `//` inside the string is taken for a
comment; in `{"a": "it's"}` the apostrophe is turned into a double quote; in
`{"a": "}"}` the candidate span ends at the brace inside the string; in
`{"a": "x\ny"}` (with the escape `\n` of JSON) the escape is turned into a line
feed, which a JSON string may not contain. -/
theorem C17_autoExtract_loses_valid_json :
    (parse "\x7b\"u\": \"http://x\"\x7d".toList =
        some (JVal.obj [(utf16 "u".toList, JVal.str (utf16 "http://x".toList))]) ∧
      ∀ f, autoExtract f "\x7b\"u\": \"http://x\"\x7d".toList { } = JVal.null) ∧
    (parse "\x7b\"a\": \"it's\"\x7d".toList =
        some (JVal.obj [(utf16 "a".toList, JVal.str (utf16 "it's".toList))]) ∧
      ∀ f, autoExtract f "\x7b\"a\": \"it's\"\x7d".toList { } = JVal.null) ∧
    (parse "\x7b\"a\": \"\x7d\"\x7d".toList =
        some (JVal.obj [(utf16 "a".toList, JVal.str (utf16 "\x7d".toList))]) ∧
      ∀ f, autoExtract f "\x7b\"a\": \"\x7d\"\x7d".toList { } = JVal.null) ∧
    (parse "\x7b\"a\": \"x\\ny\"\x7d".toList =
        some (JVal.obj [(utf16 "a".toList, JVal.str (utf16 "x\ny".toList))]) ∧
      ∀ f, autoExtract f "\x7b\"a\": \"x\\ny\"\x7d".toList { } = JVal.null) :=
  ⟨⟨by rfl, fun _ => by rfl⟩, ⟨by rfl, fun _ => by rfl⟩, ⟨by rfl, fun _ => by rfl⟩,
    ⟨by rfl, fun _ => by rfl⟩⟩

/-- C17 (amended): let the text be `{` + body + `}` where body contains no `}`,
and let the text contain no code fence pair, no backslash followed by `n`, no
`//`, no block comment `/*` ... `*/`, no single quote, no bare key and no
trailing comma (in its string values or elsewhere). If the text parses, then
`autoExtract` with default options returns the document of the direct parse. -/
theorem C17_autoExtract_of_clean_object (f : JVal → List Nat) (body : Str) (d : JVal)
    (hbody : '}' ∉ body)
    (hf : anyMatch fenceRule ('{' :: (body ++ ['}'])) = false)
    (hn : anyMatch newlineRule ('{' :: (body ++ ['}'])) = false)
    (hl : anyMatch lineCommentRule ('{' :: (body ++ ['}'])) = false)
    (hb : anyMatch blockCommentRule ('{' :: (body ++ ['}'])) = false)
    (hq : '\'' ∉ '{' :: (body ++ ['}']))
    (hk : hasBareKey ('{' :: (body ++ ['}'])) = false)
    (hc : hasTrailingComma ('{' :: (body ++ ['}'])) = false)
    (hp : parse ('{' :: (body ++ ['}'])) = some d) :
    autoExtract f ('{' :: (body ++ ['}'])) { } = d :=
  autoExtract_of_clean f body d hbody hf hn hl hb hq hk hc hp

/-- C17 (witness): the object `{"a": [1, "x:y"], "b": null}`. -/
theorem C17_autoExtract_of_clean_object_witness :
    autoExtract (fun _ => []) "\x7b\"a\": [1, \"x:y\"], \"b\": null\x7d".toList { } =
      JVal.obj [(utf16 "a".toList, JVal.arr [JVal.num 1, JVal.str (utf16 "x:y".toList)]),
        (utf16 "b".toList, JVal.null)] :=
  C17_autoExtract_of_clean_object (fun _ => []) "\"a\": [1, \"x:y\"], \"b\": null".toList _
    (by decide) (by decide) (by decide) (by decide) (by decide) (by decide) (by decide)
    (by decide) (by rfl)

/-! ## Claims about `compare`, `patch` and `validateSchema` -/

/-- C18 (counterexample): in `a = {k: {x: 1, y: 2}}` and `b = {k: {y: 2, x: 1}}`
the values under `k` are equal as documents (same keys, same values, another
key order), yet `compare(a, b)` lists `k` under `changed` and not under
`unchanged`. -/
theorem C18_compare_key_order_changed :
    docEq (JVal.obj [(utf16 "x".toList, JVal.num 1), (utf16 "y".toList, JVal.num 2)])
        (JVal.obj [(utf16 "y".toList, JVal.num 2), (utf16 "x".toList, JVal.num 1)]) = true ∧
      (compare
        [(utf16 "k".toList,
          JVal.obj [(utf16 "x".toList, JVal.num 1), (utf16 "y".toList, JVal.num 2)])]
        [(utf16 "k".toList,
          JVal.obj [(utf16 "y".toList, JVal.num 2), (utf16 "x".toList, JVal.num 1)])]).changed =
        [utf16 "k".toList] ∧
      (compare
        [(utf16 "k".toList,
          JVal.obj [(utf16 "x".toList, JVal.num 1), (utf16 "y".toList, JVal.num 2)])]
        [(utf16 "k".toList,
          JVal.obj [(utf16 "y".toList, JVal.num 2), (utf16 "x".toList, JVal.num 1)])]).unchanged =
        [] := by
  decide

/-- C18 (amended): for all plain objects `a` and `b` and every key that is an
own property of both, `compare(a, b)` lists the key under `unchanged` exactly
when `JSON.stringify(a[key])` and `JSON.stringify(b[key])` are the same text,
and under `changed` otherwise; it lists it neither under `added` nor under
`removed`. The text of an object depends on the order of its keys, so values
that differ only in key order are `changed`. -/
theorem C18_compare_common_key (a b : Obj) (key : Key) (v1 v2 : JVal)
    (h1 : a.lookup key = some v1) (h2 : b.lookup key = some v2) :
    (key ∈ (compare a b).unchanged ↔ stringify v1 = stringify v2) ∧
      (key ∈ (compare a b).changed ↔ stringify v1 ≠ stringify v2) ∧
      key ∉ (compare a b).added ∧ key ∉ (compare a b).removed := by
  have hk : key ∈ allKeys a b := (mem_allKeys a b key).mpr (Or.inl (mem_objectKeys_of_lookup a h1))
  have ha := hasProperty_of_lookup h1
  have hb := hasProperty_of_lookup h2
  rw [compare_eq]
  simp only [List.mem_filter, hk, true_and, isUnchanged, isChanged, isAdded, isRemoved, ha, hb,
    getProp_of_lookup h1, getProp_of_lookup h2, stringifyJs, Bool.true_and, Bool.not_true,
    Bool.and_false, Bool.false_eq_true, not_false_eq_true, and_true]
  constructor
  · simp
  · simp

/-- C18 (witness): in `a = {n: 1, s: "x"}` and `b = {n: 1, s: "y"}` the key `n` is
under `unchanged` and the key `s` under `changed`. -/
theorem C18_compare_common_key_witness :
    utf16 "n".toList ∈ (compare
        [(utf16 "n".toList, JVal.num 1), (utf16 "s".toList, JVal.str (utf16 "x".toList))]
        [(utf16 "n".toList, JVal.num 1), (utf16 "s".toList, JVal.str (utf16 "y".toList))]).unchanged ∧
      utf16 "s".toList ∈ (compare
        [(utf16 "n".toList, JVal.num 1), (utf16 "s".toList, JVal.str (utf16 "x".toList))]
        [(utf16 "n".toList, JVal.num 1), (utf16 "s".toList, JVal.str (utf16 "y".toList))]).changed :=
  ⟨(C18_compare_common_key _ _ (utf16 "n".toList) (JVal.num 1) (JVal.num 1) (by rfl)
      (by rfl)).1.mpr rfl,
    (C18_compare_common_key _ _ (utf16 "s".toList) (JVal.str (utf16 "x".toList))
      (JVal.str (utf16 "y".toList)) (by rfl) (by rfl)).2.1.mpr (by decide)⟩

/-- C19 (code defect): for all plain objects `a` and `b`, whatever the two loops
of `patch` would do with a clone, `patch(a, b)` does not return: both operands
pass the two guards, the call `smartJSON.deepClone(a)` comes first, and it
throws a `TypeError`. On arbitrary operands `patch` returns only through its
second guard, that is, when `obj1` is an object and `obj2` is not, and then it
returns `obj1`. -/
theorem C19_patch_throws (loops : JsVal → JsVal → JsVal → Except JsError JsVal) :
    (∀ a b : Obj, patch loops (JsVal.doc (JVal.obj a)) (JsVal.doc (JVal.obj b)) =
        Except.error JsError.typeError) ∧
      ∀ obj1 obj2 r, patch loops obj1 obj2 = Except.ok r →
        r = obj1 ∧ truthyJs obj1 = true ∧ typeofJs obj1 = utf16 "object".toList ∧
          (truthyJs obj2 = false ∨ typeofJs obj2 ≠ utf16 "object".toList) := by
  refine ⟨fun a b => rfl, ?_⟩
  intro obj1 obj2 r h
  unfold patch at h
  by_cases h1 : (!truthyJs obj1 || typeofJs obj1 != utf16 "object".toList) = true
  · rw [if_pos h1] at h
    cases h
  · rw [if_neg h1] at h
    by_cases h2 : (!truthyJs obj2 || typeofJs obj2 != utf16 "object".toList) = true
    · rw [if_pos h2] at h
      injection h with h
      simp only [Bool.or_eq_true, Bool.not_eq_true', bne_iff_ne, ne_eq, not_or,
        Bool.not_eq_false, Decidable.not_not] at h1 h2
      exact ⟨h.symm, h1.1, h1.2, h2⟩
    · rw [if_neg h2] at h
      cases h

/-- C19 (witness): `patch({}, 1)` returns its first operand through the second
guard, and `patch({"a": 1}, {"a": 2})` throws. -/
theorem C19_patch_throws_witness :
    patch (fun _ _ r => Except.ok r) (JsVal.doc (JVal.obj [])) (JsVal.doc (JVal.num 1)) =
        Except.ok (JsVal.doc (JVal.obj [])) ∧
      typeofJs (JsVal.doc (JVal.num 1)) ≠ utf16 "object".toList ∧
      patch (fun _ _ r => Except.ok r) (JsVal.doc (JVal.obj [(utf16 "a".toList, JVal.num 1)]))
          (JsVal.doc (JVal.obj [(utf16 "a".toList, JVal.num 2)])) =
        Except.error JsError.typeError :=
  ⟨rfl,
    ((C19_patch_throws (fun _ _ r => Except.ok r)).2 (JsVal.doc (JVal.obj []))
      (JsVal.doc (JVal.num 1)) _ rfl).2.2.2.resolve_left (by decide),
    (C19_patch_throws (fun _ _ r => Except.ok r)).1 _ _⟩

/-- C20 (code defect): with the schema `{name: "string"}` and the data
`{name: "x", constructor: 1}` the data has a key that the schema lacks, yet
`validateSchema` answers `valid: true` with no error, because
`"constructor" in schema` is true through `Object.prototype`; and with the schema
`{toString: "function"}` and the data `{}` the schema has a key that the data
lacks, yet the answer is again `valid: true` with no error. -/
theorem C20_validateSchema_inherited_key :
    objectKeys [(utf16 "name".toList, utf16 "string".toList)] ≠
        objectKeys [(utf16 "name".toList, JVal.str (utf16 "x".toList)),
          (utf16 "constructor".toList, JVal.num 1)] ∧
      (validateSchema [(utf16 "name".toList, utf16 "string".toList)]
        [(utf16 "name".toList, JVal.str (utf16 "x".toList)),
          (utf16 "constructor".toList, JVal.num 1)]).valid = true ∧
      (validateSchema [(utf16 "name".toList, utf16 "string".toList)]
        [(utf16 "name".toList, JVal.str (utf16 "x".toList)),
          (utf16 "constructor".toList, JVal.num 1)]).errors = [] ∧
      objectKeys [(utf16 "toString".toList, utf16 "function".toList)] ≠
        objectKeys ([] : Obj) ∧
      (validateSchema [(utf16 "toString".toList, utf16 "function".toList)] []).valid = true ∧
      (validateSchema [(utf16 "toString".toList, utf16 "function".toList)] []).errors = [] := by
  decide

end SmartJSON
